import Mathlib

/-!
Verification development for the `node-redis-memoize` package (the
Redis-specific variant, `redis-json-memoize`).  The JavaScript source is
shallowly embedded: JSON-serializable JavaScript values become the
inductive type `JsValue`, the Redis connection plus the module-level
mutable state (timer table, logs) become the explicit `World` record, and
each function of the source file becomes a Lean function threading that
state.  Asynchronous operations are modelled by running their effects in
program order; promise rejections are `Except.error` values, and
fire-and-forget rejections are dropped exactly where the source drops
them.
-/

/-- JSON-serializable JavaScript values (the payloads this library caches).
Numbers are restricted to integers, which covers every value the claims
are about. -/
inductive JsValue where
  | vNull : JsValue
  | vBool : Bool → JsValue
  | vNum : Int → JsValue
  | vStr : String → JsValue
  | vArr : List JsValue → JsValue
  | vObj : List (String × JsValue) → JsValue
deriving Inhabited

namespace JsValue

/-- Strong induction principle exposing membership hypotheses for the
nested lists, used for all recursive proofs about `JsValue`. -/
theorem memberInduction (P : JsValue → Prop)
    (h1 : P vNull) (h2 : ∀ b, P (vBool b)) (h3 : ∀ n, P (vNum n))
    (h4 : ∀ s, P (vStr s))
    (h5 : ∀ xs, (∀ x ∈ xs, P x) → P (vArr xs))
    (h6 : ∀ fs, (∀ p ∈ fs, P p.2) → P (vObj fs)) : ∀ v, P v
  | vNull => h1
  | vBool b => h2 b
  | vNum n => h3 n
  | vStr s => h4 s
  | vArr xs => h5 xs (fun x hx =>
      have : sizeOf x < 1 + sizeOf xs := by
        have := List.sizeOf_lt_of_mem hx
        omega
      memberInduction P h1 h2 h3 h4 h5 h6 x)
  | vObj fs => h6 fs (fun p hp =>
      have : sizeOf p.2 < 1 + sizeOf fs := by
        have h := List.sizeOf_lt_of_mem hp
        have h2 : sizeOf p.2 < sizeOf p := by
          obtain ⟨a, b⟩ := p
          simp
        omega
      memberInduction P h1 h2 h3 h4 h5 h6 p.2)
termination_by v => sizeOf v

end JsValue

open JsValue

/-- JavaScript truthiness of a value (`!!v`). -/
def truthy : JsValue → Bool
  | vNull => false
  | vBool b => b
  | vNum n => n != 0
  | vStr s => s != ""
  | vArr _ => true
  | vObj _ => true

/-- Association-list lookup by string key (first match), modelling
JavaScript property access `obj[k]` on the own properties of an object. -/
def alGet {α : Type} : List (String × α) → String → Option α
  | [], _ => none
  | (k, v) :: rest, key => if k = key then some v else alGet rest key

/-- Association-list update: replace the value at the first occurrence of
the key, keeping its position, else append at the end.  This models the
JavaScript property write `obj[k] = v` (insertion order semantics). -/
def alSet {α : Type} : List (String × α) → String → α → List (String × α)
  | [], key, v => [(key, v)]
  | (k, w) :: rest, key, v =>
    if k = key then (k, v) :: rest else (k, w) :: alSet rest key v

/-- Association-list removal of a key (`delete obj[k]`). -/
def alRemove {α : Type} : List (String × α) → String → List (String × α)
  | [], _ => []
  | (k, w) :: rest, key => if k = key then rest else (k, w) :: alRemove rest key

/-- JavaScript property read `v[k]`: objects expose their fields, every
other value yields `undefined` (modelled as `none`) for the property
names used by this library. -/
def getProp : JsValue → String → Option JsValue
  | vObj fs, k => alGet fs k
  | _, _ => none

/-- JavaScript property write `v[k] = x` in sloppy mode: updates objects,
is a silent no-op on primitives, and on arrays attaches a non-index
property that `JSON.stringify` ignores, so for serialization purposes
arrays are unchanged as well. -/
def setProp : JsValue → String → JsValue → JsValue
  | vObj fs, k, x => vObj (alSet fs k x)
  | v, _, _ => v

theorem alGet_alSet_self {α : Type} (l : List (String × α)) (k : String) (v : α) :
    alGet (alSet l k v) k = some v := by
  induction l with
  | nil => simp [alSet, alGet]
  | cons p rest ih =>
    obtain ⟨k', w⟩ := p
    by_cases h : k' = k <;> simp [alSet, alGet, h, ih]

theorem alGet_alSet_other {α : Type} (l : List (String × α)) (k k' : String) (v : α)
    (h : k' ≠ k) : alGet (alSet l k v) k' = alGet l k' := by
  induction l with
  | nil =>
    simp only [alSet, alGet, ite_eq_right_iff]
    intro hk
    exact absurd hk.symm h
  | cons p rest ih =>
    obtain ⟨k'', w⟩ := p
    by_cases h2 : k'' = k <;> by_cases h3 : k'' = k' <;>
      simp_all [alSet, alGet]

/-! JSON serialization (`JSON.stringify`), modelled character by
character, and a JSON parser modelling `JSON.parse` on the strings this
library stores. -/

/-- Decimal digit character. -/
def decChar : Nat → Char
  | 0 => '0' | 1 => '1' | 2 => '2' | 3 => '3' | 4 => '4'
  | 5 => '5' | 6 => '6' | 7 => '7' | 8 => '8' | 9 => '9'
  | _ => '*'

/-- Lowercase hexadecimal digit character, as produced by
`JSON.stringify` unicode escapes. -/
def hexChar : Nat → Char
  | 0 => '0' | 1 => '1' | 2 => '2' | 3 => '3' | 4 => '4'
  | 5 => '5' | 6 => '6' | 7 => '7' | 8 => '8' | 9 => '9'
  | 10 => 'a' | 11 => 'b' | 12 => 'c' | 13 => 'd' | 14 => 'e' | 15 => 'f'
  | _ => '*'

/-- Fueled decimal-digit expansion, most significant digit first. -/
def natCharsAux : Nat → Nat → List Char
  | 0, _ => []
  | f + 1, n =>
    if n < 10 then [decChar n]
    else natCharsAux f (n / 10) ++ [decChar (n % 10)]

/-- Decimal digit list of a natural number, most significant first. -/
def natChars (n : Nat) : List Char := natCharsAux (n + 1) n

/-- Decimal representation of an integer (`String(n)` for integral JS
numbers). -/
def intChars (n : Int) : List Char :=
  if n < 0 then '-' :: natChars n.natAbs else natChars n.natAbs

/-- `JSON.stringify` escaping of one string character. -/
def escChar (c : Char) : List Char :=
  if c = '"' then ['\\', '"']
  else if c = '\\' then ['\\', '\\']
  else if c = '\x08' then ['\\', 'b']
  else if c = '\x09' then ['\\', 't']
  else if c = '\x0a' then ['\\', 'n']
  else if c = '\x0c' then ['\\', 'f']
  else if c = '\x0d' then ['\\', 'r']
  else if c.toNat < 32 then ['\\', 'u', '0', '0', hexChar (c.toNat / 16), hexChar (c.toNat % 16)]
  else [c]

/-- Escaped body of a JSON string literal. -/
def escBody : List Char → List Char
  | [] => []
  | c :: cs => escChar c ++ escBody cs

/-- A complete JSON string literal, quotes included. -/
def strChars (s : List Char) : List Char := '"' :: (escBody s ++ ['"'])


mutual

/-- `JSON.stringify` of a value, as a character list (object fields in
insertion order). -/
def printJsonL : JsValue → List Char
  | vNull => ['n', 'u', 'l', 'l']
  | vBool b => if b then ['t', 'r', 'u', 'e'] else ['f', 'a', 'l', 's', 'e']
  | vNum n => intChars n
  | vStr s => strChars s.data
  | vArr xs => '[' :: (printElemsL xs ++ [']'])
  | vObj fs => '\x7b' :: (printFieldsL fs ++ ['\x7d'])

/-- Comma-separated serialization of array elements. -/
def printElemsL : List JsValue → List Char
  | [] => []
  | x :: xs => printJsonL x ++ printElemsT xs

/-- Comma-prefixed serialization of the tail elements of an array. -/
def printElemsT : List JsValue → List Char
  | [] => []
  | x :: xs => ',' :: (printJsonL x ++ printElemsT xs)

/-- Comma-separated serialization of object fields. -/
def printFieldsL : List (String × JsValue) → List Char
  | [] => []
  | p :: ps => strChars p.1.data ++ ':' :: (printJsonL p.2 ++ printFieldsT ps)

/-- Comma-prefixed serialization of the tail fields of an object. -/
def printFieldsT : List (String × JsValue) → List Char
  | [] => []
  | p :: ps => ',' :: (strChars p.1.data ++ ':' :: (printJsonL p.2 ++ printFieldsT ps))

end

/-- `JSON.stringify` of a value. -/
def jsonStringify (v : JsValue) : String := String.mk (printJsonL v)

/-- Decimal digit test. -/
def isDigitC (c : Char) : Bool := 48 ≤ c.toNat && c.toNat ≤ 57

/-- Value of a decimal digit character. -/
def digVal (c : Char) : Nat := c.toNat - 48

/-- Greedily split a leading run of decimal digits. -/
def takeDigits : List Char → (List Nat × List Char)
  | [] => ([], [])
  | c :: cs =>
    if isDigitC c then
      let p := takeDigits cs
      (digVal c :: p.1, p.2)
    else ([], c :: cs)

/-- Numeric value of a most-significant-first digit list. -/
def digsVal (ds : List Nat) : Nat := ds.foldl (fun a d => 10 * a + d) 0

/-- Parse a natural number literal. -/
def parseNatL (input : List Char) : Option (Nat × List Char) :=
  match takeDigits input with
  | ([], _) => none
  | (ds, rest) => some (digsVal ds, rest)

/-- Parse an integer literal (optional leading minus). -/
def parseNumL : List Char → Option (Int × List Char)
  | '-' :: cs => (parseNatL cs).map (fun p => (-(p.1 : Int), p.2))
  | cs => (parseNatL cs).map (fun p => ((p.1 : Int), p.2))

/-- Value of a hexadecimal digit character. -/
def hexVal (c : Char) : Option Nat :=
  if 48 ≤ c.toNat && c.toNat ≤ 57 then some (c.toNat - 48)
  else if 97 ≤ c.toNat && c.toNat ≤ 102 then some (c.toNat - 87)
  else if 65 ≤ c.toNat && c.toNat ≤ 70 then some (c.toNat - 55)
  else none

/-- Single-character JSON escapes. -/
def unescChar (c : Char) : Option Char :=
  if c = '"' then some '"'
  else if c = '\\' then some '\\'
  else if c = '/' then some '/'
  else if c = 'b' then some '\x08'
  else if c = 't' then some '\x09'
  else if c = 'n' then some '\x0a'
  else if c = 'f' then some '\x0c'
  else if c = 'r' then some '\x0d'
  else none

/-- Parse the body of a JSON string literal after the opening quote,
returning the decoded characters and the input after the closing
quote. -/
def parseStrBody : List Char → Option (List Char × List Char)
  | [] => none
  | c :: cs =>
    if c = '"' then some ([], cs)
    else if c = '\\' then
      match cs with
      | [] => none
      | e :: rest =>
        if e = 'u' then
          match rest with
          | h1 :: h2 :: h3 :: h4 :: rest2 =>
            match hexVal h1, hexVal h2, hexVal h3, hexVal h4 with
            | some a, some b, some c2, some d =>
              (parseStrBody rest2).map
                (fun p => (Char.ofNat (((a * 16 + b) * 16 + c2) * 16 + d) :: p.1, p.2))
            | _, _, _, _ => none
          | _ => none
        else
          match unescChar e with
          | some c2 => (parseStrBody rest).map (fun p => (c2 :: p.1, p.2))
          | none => none
    else (parseStrBody cs).map (fun p => (c :: p.1, p.2))

/-- Fuel-indexed JSON value parser, modelling `JSON.parse` acceptance on
the strings this library stores.  Array and object tails are parsed by
re-wrapping the remaining input behind the opening bracket, which keeps
the recursion structural in the fuel. -/
def parseVal : Nat → List Char → Option (JsValue × List Char)
  | 0, _ => none
  | _ + 1, [] => none
  | f + 1, c :: cs =>
    if c = '"' then (parseStrBody cs).map (fun p => (vStr (String.mk p.1), p.2))
    else if c = 'n' then
      match cs with
      | 'u' :: 'l' :: 'l' :: rest => some (vNull, rest)
      | _ => none
    else if c = 't' then
      match cs with
      | 'r' :: 'u' :: 'e' :: rest => some (vBool true, rest)
      | _ => none
    else if c = 'f' then
      match cs with
      | 'a' :: 'l' :: 's' :: 'e' :: rest => some (vBool false, rest)
      | _ => none
    else if c = '[' then
      match cs with
      | [] => none
      | c2 :: cs2 =>
        if c2 = ']' then some (vArr [], cs2)
        else
          match parseVal f (c2 :: cs2) with
          | none => none
          | some (v, rest) =>
            match rest with
            | [] => none
            | r :: r2 =>
              if r = ',' then
                match parseVal f ('[' :: r2) with
                | some (vArr vs, r3) => some (vArr (v :: vs), r3)
                | _ => none
              else if r = ']' then some (vArr [v], r2)
              else none
    else if c = '\x7b' then
      match cs with
      | [] => none
      | c2 :: cs2 =>
        if c2 = '\x7d' then some (vObj [], cs2)
        else if c2 = '"' then
          match parseStrBody cs2 with
          | none => none
          | some (k, rest) =>
            match rest with
            | [] => none
            | r :: r2 =>
              if r = ':' then
                match parseVal f r2 with
                | none => none
                | some (v, r3) =>
                  match r3 with
                  | [] => none
                  | r4 :: r5 =>
                    if r4 = ',' then
                      match parseVal f ('\x7b' :: r5) with
                      | some (vObj ms, r6) => some (vObj ((String.mk k, v) :: ms), r6)
                      | _ => none
                    else if r4 = '\x7d' then some (vObj [(String.mk k, v)], r5)
                    else none
              else none
        else none
    else
      (parseNumL (c :: cs)).map (fun p => (vNum p.1, p.2))

/-- `JSON.parse` model: parse and require full consumption of the
input. -/
def jsonParse (s : String) : Option JsValue :=
  match parseVal (s.data.length + 1) s.data with
  | some (v, []) => some v
  | _ => none

example : jsonStringify (vObj [("v", vNum 1)]) = "\x7b\"v\":1\x7d" := rfl
example : jsonParse "\x7b\"v\":1\x7d" = some (vObj [("v", vNum 1)]) := rfl
example : jsonParse "null" = some vNull := rfl
example : jsonParse "" = none := rfl
example : jsonParse "abc" = none := rfl
example : jsonStringify (vArr [vNum (-3), vStr "a\nb"]) = "[-3,\"a\\nb\"]" := rfl
example : jsonParse "[-3,\"a\\nb\"]" = some (vArr [vNum (-3), vStr "a\nb"]) := rfl
example : jsonParse "\x7b\"a\":1,\"b\":[true,null]\x7d" =
    some (vObj [("a", vNum 1), ("b", vArr [vBool true, vNull])]) := rfl

/-! Round-trip lemmas: `JSON.parse` recovers every value produced by
`JSON.stringify`.  These back the cache-hit claims, where the wrapper
returns the deserialized form of the serialized payload it stored. -/

theorem decChar_isDigit (d : Nat) (h : d < 10) : isDigitC (decChar d) = true := by
  interval_cases d <;> decide

theorem digVal_decChar (d : Nat) (h : d < 10) : digVal (decChar d) = d := by
  interval_cases d <;> decide

theorem natCharsAux_digits (f : Nat) :
    ∀ n, ∀ c ∈ natCharsAux f n, isDigitC c = true := by
  induction f with
  | zero => intro n c h; simp [natCharsAux] at h
  | succ f ih =>
    intro n c h
    by_cases h10 : n < 10
    · simp [natCharsAux, h10] at h
      subst h
      exact decChar_isDigit n h10
    · simp [natCharsAux, h10] at h
      rcases h with h | h
      · exact ih _ _ h
      · subst h
        exact decChar_isDigit _ (Nat.mod_lt _ (by omega))

theorem natChars_digits (n : Nat) : ∀ c ∈ natChars n, isDigitC c = true :=
  natCharsAux_digits (n + 1) n

theorem natCharsAux_fuel : ∀ f g n : Nat, n < f → n < g →
    natCharsAux f n = natCharsAux g n := by
  intro f
  induction f with
  | zero => intro g n hf; omega
  | succ f ih =>
    intro g n hf hg
    match g, hg with
    | g + 1, hg =>
      by_cases h10 : n < 10
      · simp [natCharsAux, h10]
      · have hdiv : n / 10 < n := Nat.div_lt_self (by omega) (by omega)
        simp only [natCharsAux, if_neg h10]
        rw [ih g (n / 10) (by omega) (by omega)]

theorem natChars_ge10 (n : Nat) (h : 10 ≤ n) :
    natChars n = natChars (n / 10) ++ [decChar (n % 10)] := by
  have hdiv : n / 10 < n := Nat.div_lt_self (by omega) (by omega)
  show natCharsAux (n + 1) n = _
  simp only [natCharsAux, if_neg (by omega : ¬ n < 10)]
  rw [natCharsAux_fuel n (n / 10 + 1) (n / 10) (by omega) (by omega)]
  rfl

theorem natChars_ne_nil (n : Nat) : natChars n ≠ [] := by
  by_cases h10 : n < 10
  · show natCharsAux (n + 1) n ≠ []
    simp [natCharsAux, h10]
  · rw [natChars_ge10 n (by omega)]
    simp

theorem digsVal_append (X : List Nat) (d : Nat) :
    digsVal (X ++ [d]) = 10 * digsVal X + d := by
  simp [digsVal, List.foldl_append]

theorem digsVal_natChars : ∀ n : Nat, digsVal ((natChars n).map digVal) = n := by
  intro n
  induction n using Nat.strong_induction_on with
  | _ n ih =>
    by_cases h10 : n < 10
    · have : natChars n = [decChar n] := by
        show natCharsAux (n + 1) n = _
        simp [natCharsAux, h10]
      rw [this]
      simp [digsVal, digVal_decChar n h10]
    · rw [natChars_ge10 n (by omega)]
      have hdiv : n / 10 < n := Nat.div_lt_self (by omega) (by omega)
      rw [List.map_append, List.map_singleton, digsVal_append,
        ih (n / 10) hdiv, digVal_decChar _ (Nat.mod_lt _ (by omega))]
      omega

/-- The next input character, if any, is not a decimal digit; numbers are
parsed greedily, so this captures the separators that follow a printed
number. -/
def headNonDigitB : List Char → Bool
  | [] => true
  | c :: _ => !isDigitC c

theorem takeDigits_stop (B : List Char) (h : headNonDigitB B = true) :
    takeDigits B = ([], B) := by
  match B with
  | [] => rfl
  | c :: cs =>
    simp [headNonDigitB] at h
    simp [takeDigits, h]

theorem takeDigits_append_digits :
    ∀ A B : List Char, (∀ c ∈ A, isDigitC c = true) →
      takeDigits (A ++ B) = (A.map digVal ++ (takeDigits B).1, (takeDigits B).2) := by
  intro A
  induction A with
  | nil => intro B h; simp
  | cons c A ih =>
    intro B h
    have hc : isDigitC c = true := h c (by simp)
    simp only [List.cons_append, takeDigits, hc, if_true, List.append_eq]
    rw [ih B (fun x hx => h x (by simp [hx]))]
    simp

theorem parseNatL_natChars (n : Nat) (rest : List Char)
    (h : headNonDigitB rest = true) :
    parseNatL (natChars n ++ rest) = some (n, rest) := by
  have h1 := takeDigits_append_digits (natChars n) rest (natChars_digits n)
  rw [takeDigits_stop rest h] at h1
  simp only [List.append_nil] at h1
  have hne : (natChars n).map digVal ≠ [] := by
    simp [natChars_ne_nil n]
  obtain ⟨d, ds, hm⟩ : ∃ d ds, (natChars n).map digVal = d :: ds := by
    match hx : (natChars n).map digVal, hne with
    | d :: ds, _ => exact ⟨d, ds, rfl⟩
  unfold parseNatL
  rw [h1, hm]
  show some (digsVal (d :: ds), rest) = some (n, rest)
  rw [← hm, digsVal_natChars n]

theorem parseNumL_intChars (n : Int) (rest : List Char)
    (h : headNonDigitB rest = true) :
    parseNumL (intChars n ++ rest) = some (n, rest) := by
  by_cases hn : n < 0
  · have : intChars n = '-' :: natChars n.natAbs := by simp [intChars, hn]
    rw [this]
    show parseNumL ('-' :: (natChars n.natAbs ++ rest)) = _
    simp only [parseNumL]
    rw [parseNatL_natChars _ rest h]
    have hval : (-(n.natAbs : Int)) = n := by omega
    show some (-(n.natAbs : Int), rest) = some (n, rest)
    rw [hval]
  · have hrep : intChars n = natChars n.natAbs := by simp [intChars, hn]
    rw [hrep]
    obtain ⟨c, cs, hcons⟩ : ∃ c cs, natChars n.natAbs = c :: cs := by
      match hx : natChars n.natAbs, natChars_ne_nil n.natAbs with
      | c :: cs, _ => exact ⟨c, cs, rfl⟩
    have hdig : isDigitC c = true := by
      have := natChars_digits n.natAbs c (by rw [hcons]; simp)
      exact this
    have hcne : c ≠ '-' := by
      intro hceq
      rw [hceq] at hdig
      simp [isDigitC] at hdig
    rw [hcons]
    show parseNumL (c :: (cs ++ rest)) = _
    rw [parseNumL.eq_def]
    split
    · rename_i cs2 heq
      injection heq with h1 h2
      exact absurd h1 hcne
    · have hrw : c :: (cs ++ rest) = natChars n.natAbs ++ rest := by rw [hcons]; rfl
      rw [hrw, parseNatL_natChars _ rest h]
      have hval : ((n.natAbs : Int)) = n := by omega
      show some ((n.natAbs : Int), rest) = some (n, rest)
      rw [hval]

theorem hexVal_hexChar (d : Nat) (h : d < 16) : hexVal (hexChar d) = some d := by
  interval_cases d <;> decide

theorem parseStrBody_quote (X : List Char) : parseStrBody ('"' :: X) = some ([], X) := by
  unfold parseStrBody
  rfl

theorem parseStrBody_esc2 (e c : Char) (X : List Char) (he : e ≠ 'u')
    (hu : unescChar e = some c) :
    parseStrBody ('\\' :: e :: X) = (parseStrBody X).map (fun p => (c :: p.1, p.2)) := by
  rw [parseStrBody.eq_def]
  simp [he, hu]

theorem parseStrBody_escU (h1 h2 h3 h4 : Char) (X : List Char) (a b c2 d : Nat)
    (ha : hexVal h1 = some a) (hb : hexVal h2 = some b) (hc : hexVal h3 = some c2)
    (hd : hexVal h4 = some d) :
    parseStrBody ('\\' :: 'u' :: h1 :: h2 :: h3 :: h4 :: X) =
      (parseStrBody X).map
        (fun p => (Char.ofNat (((a * 16 + b) * 16 + c2) * 16 + d) :: p.1, p.2)) := by
  rw [parseStrBody.eq_def]
  simp [ha, hb, hc, hd]

theorem parseStrBody_other (c : Char) (X : List Char) (hq : c ≠ '"') (hb : c ≠ '\\') :
    parseStrBody (c :: X) = (parseStrBody X).map (fun p => (c :: p.1, p.2)) := by
  rw [parseStrBody.eq_def]
  simp [hq, hb]

theorem parseStrBody_escBody :
    ∀ (l : List Char) (rest : List Char),
      parseStrBody (escBody l ++ '"' :: rest) = some (l, rest) := by
  intro l
  induction l with
  | nil =>
    intro rest
    show parseStrBody ('"' :: rest) = _
    exact parseStrBody_quote rest
  | cons c l ih =>
    intro rest
    show parseStrBody ((escChar c ++ escBody l) ++ '"' :: rest) = _
    rw [List.append_assoc]
    by_cases hv1 : c = '"'
    · subst hv1
      rw [show escChar '"' = ['\\', '"'] from rfl, List.cons_append, List.cons_append,
        List.nil_append, parseStrBody_esc2 '"' '"' _ (by decide) (by decide), ih rest]
      rfl
    · by_cases hv2 : c = '\\'
      · subst hv2
        rw [show escChar '\\' = ['\\', '\\'] from rfl, List.cons_append, List.cons_append,
          List.nil_append, parseStrBody_esc2 '\\' '\\' _ (by decide) (by decide), ih rest]
        rfl
      · by_cases hv3 : c = '\x08'
        · subst hv3
          rw [show escChar '\x08' = ['\\', 'b'] from rfl, List.cons_append, List.cons_append,
            List.nil_append, parseStrBody_esc2 'b' '\x08' _ (by decide) (by decide), ih rest]
          rfl
        · by_cases hv4 : c = '\x09'
          · subst hv4
            rw [show escChar '\x09' = ['\\', 't'] from rfl, List.cons_append, List.cons_append,
              List.nil_append, parseStrBody_esc2 't' '\x09' _ (by decide) (by decide), ih rest]
            rfl
          · by_cases hv5 : c = '\x0a'
            · subst hv5
              rw [show escChar '\x0a' = ['\\', 'n'] from rfl, List.cons_append, List.cons_append,
                List.nil_append, parseStrBody_esc2 'n' '\x0a' _ (by decide) (by decide), ih rest]
              rfl
            · by_cases hv6 : c = '\x0c'
              · subst hv6
                rw [show escChar '\x0c' = ['\\', 'f'] from rfl, List.cons_append,
                  List.cons_append, List.nil_append,
                  parseStrBody_esc2 'f' '\x0c' _ (by decide) (by decide), ih rest]
                rfl
              · by_cases hv7 : c = '\x0d'
                · subst hv7
                  rw [show escChar '\x0d' = ['\\', 'r'] from rfl, List.cons_append,
                    List.cons_append, List.nil_append,
                    parseStrBody_esc2 'r' '\x0d' _ (by decide) (by decide), ih rest]
                  rfl
                · by_cases hv8 : c.toNat < 32
                  · have hesc : escChar c = ['\\', 'u', '0', '0', hexChar (c.toNat / 16),
                        hexChar (c.toNat % 16)] := by
                      simp only [escChar, if_neg hv1, if_neg hv2, if_neg hv3, if_neg hv4,
                        if_neg hv5, if_neg hv6, if_neg hv7, if_pos hv8]
                    rw [hesc]
                    show parseStrBody ('\\' :: 'u' :: '0' :: '0' :: hexChar (c.toNat / 16) ::
                      hexChar (c.toNat % 16) :: (escBody l ++ '"' :: rest)) = _
                    rw [parseStrBody_escU _ _ _ _ _ 0 0 (c.toNat / 16) (c.toNat % 16)
                      (by decide) (by decide) (hexVal_hexChar _ (by omega))
                      (hexVal_hexChar _ (by omega)), ih rest]
                    have harith : ((0 * 16 + 0) * 16 + c.toNat / 16) * 16 + c.toNat % 16
                        = c.toNat := by omega
                    rw [harith, Char.ofNat_toNat]
                    rfl
                  · have hesc : escChar c = [c] := by
                      simp only [escChar, if_neg hv1, if_neg hv2, if_neg hv3, if_neg hv4,
                        if_neg hv5, if_neg hv6, if_neg hv7, if_neg hv8]
                    rw [hesc]
                    show parseStrBody (c :: (escBody l ++ '"' :: rest)) = _
                    rw [parseStrBody_other c _ hv1 hv2, ih rest]
                    rfl

mutual

/-- Fuel needed by `parseVal` to parse the printed form of a value. -/
def needV : JsValue → Nat
  | vNull => 1
  | vBool _ => 1
  | vNum _ => 1
  | vStr _ => 1
  | vArr xs => needElems xs + 1
  | vObj fs => needFields fs + 1

/-- Fuel needed below the opening bracket of an array. -/
def needElems : List JsValue → Nat
  | [] => 0
  | x :: xs => max (needV x) (needElems xs + 1) + 1

/-- Fuel needed below the opening brace of an object. -/
def needFields : List (String × JsValue) → Nat
  | [] => 0
  | p :: ps => max (needV p.2) (needFields ps + 1) + 1

end

theorem needV_pos (v : JsValue) : 1 ≤ needV v := by
  cases v <;> simp [needV]

theorem intChars_ne_nil (n : Int) : intChars n ≠ [] := by
  unfold intChars
  split
  · simp
  · exact natChars_ne_nil _

theorem intChars_head (m : Int) (c : Char) (t : List Char) (h : intChars m = c :: t) :
    c = '-' ∨ isDigitC c = true := by
  unfold intChars at h
  split at h
  · left
    exact (List.cons.injEq _ _ _ _ ▸ h).1.symm
  · right
    exact natChars_digits m.natAbs c (h ▸ List.mem_cons_self c t)

theorem numHead_ne (c : Char) (h : c = '-' ∨ isDigitC c = true) :
    c ≠ '"' ∧ c ≠ 'n' ∧ c ≠ 't' ∧ c ≠ 'f' ∧ c ≠ '[' ∧ c ≠ '\x7b' := by
  rcases h with h | h
  · subst h
    refine ⟨by decide, by decide, by decide, by decide, by decide, by decide⟩
  · refine ⟨?_, ?_, ?_, ?_, ?_, ?_⟩ <;>
      (intro heq; subst heq; simp [isDigitC] at h)

theorem printJsonL_ne_nil (v : JsValue) : printJsonL v ≠ [] := by
  cases v with
  | vNull => simp [printJsonL]
  | vBool b => cases b <;> simp [printJsonL]
  | vNum n => simpa [printJsonL] using intChars_ne_nil n
  | vStr s => simp [printJsonL, strChars]
  | vArr xs => simp [printJsonL]
  | vObj fs => simp [printJsonL]

theorem printJsonL_head_ne_rbrack (v : JsValue) (c : Char) (t : List Char)
    (h : printJsonL v = c :: t) : c ≠ ']' := by
  cases v with
  | vNull =>
    simp [printJsonL] at h
    rw [← h.1]
    decide
  | vBool b =>
    cases b <;> (simp [printJsonL] at h; rw [← h.1]; decide)
  | vNum n =>
    have := intChars_head n c t (by simpa [printJsonL] using h)
    rcases this with h1 | h1
    · subst h1; decide
    · intro heq; subst heq; simp [isDigitC] at h1
  | vStr s =>
    simp [printJsonL, strChars] at h
    rw [← h.1]
    decide
  | vArr xs =>
    simp [printJsonL] at h
    rw [← h.1]
    decide
  | vObj fs =>
    simp [printJsonL] at h
    rw [← h.1]
    decide

theorem headNonDigitB_elemsT (xs : List JsValue) (r : List Char) :
    headNonDigitB (printElemsT xs ++ ']' :: r) = true := by
  cases xs <;> simp [printElemsT, headNonDigitB, isDigitC]

theorem headNonDigitB_fieldsT (ps : List (String × JsValue)) (r : List Char) :
    headNonDigitB (printFieldsT ps ++ '\x7d' :: r) = true := by
  cases ps <;> simp [printFieldsT, headNonDigitB, isDigitC, strChars]

theorem parseVal_null (f : Nat) (rest : List Char) :
    parseVal (f + 1) ('n' :: 'u' :: 'l' :: 'l' :: rest) = some (vNull, rest) := by
  unfold parseVal
  rfl

theorem parseVal_true (f : Nat) (rest : List Char) :
    parseVal (f + 1) ('t' :: 'r' :: 'u' :: 'e' :: rest) = some (vBool true, rest) := by
  unfold parseVal
  rfl

theorem parseVal_false (f : Nat) (rest : List Char) :
    parseVal (f + 1) ('f' :: 'a' :: 'l' :: 's' :: 'e' :: rest) = some (vBool false, rest) := by
  unfold parseVal
  rfl

theorem parseVal_str (f : Nat) (cs : List Char) :
    parseVal (f + 1) ('"' :: cs) =
      (parseStrBody cs).map (fun p => (vStr (String.mk p.1), p.2)) := by
  unfold parseVal
  rfl

theorem parseVal_num (f : Nat) (c : Char) (cs : List Char)
    (h : c = '-' ∨ isDigitC c = true) :
    parseVal (f + 1) (c :: cs) = (parseNumL (c :: cs)).map (fun p => (vNum p.1, p.2)) := by
  obtain ⟨n1, n2, n3, n4, n5, n6⟩ := numHead_ne c h
  rw [parseVal.eq_def]
  simp [n1, n2, n3, n4, n5, n6]

theorem parseVal_arr_nil (f : Nat) (rest : List Char) :
    parseVal (f + 1) ('[' :: ']' :: rest) = some (vArr [], rest) := by
  unfold parseVal
  rfl

theorem parseVal_arr_last (f : Nat) (c2 : Char) (cs2 r2 : List Char) (x : JsValue)
    (hc2 : c2 ≠ ']') (h1 : parseVal f (c2 :: cs2) = some (x, ']' :: r2)) :
    parseVal (f + 1) ('[' :: c2 :: cs2) = some (vArr [x], r2) := by
  rw [parseVal.eq_def]
  simp [hc2, h1]

theorem parseVal_arr_more (f : Nat) (c2 : Char) (cs2 r2 : List Char) (x : JsValue)
    (vs : List JsValue) (r3 : List Char) (hc2 : c2 ≠ ']')
    (h1 : parseVal f (c2 :: cs2) = some (x, ',' :: r2))
    (h2 : parseVal f ('[' :: r2) = some (vArr vs, r3)) :
    parseVal (f + 1) ('[' :: c2 :: cs2) = some (vArr (x :: vs), r3) := by
  rw [parseVal.eq_def]
  simp [hc2, h1, h2]

theorem parseVal_obj_nil (f : Nat) (rest : List Char) :
    parseVal (f + 1) ('\x7b' :: '\x7d' :: rest) = some (vObj [], rest) := by
  unfold parseVal
  rfl

theorem parseVal_obj_last (f : Nat) (cs2 r2 r4 : List Char) (k : List Char) (v : JsValue)
    (hkey : parseStrBody cs2 = some (k, ':' :: r2))
    (hval : parseVal f r2 = some (v, '\x7d' :: r4)) :
    parseVal (f + 1) ('\x7b' :: '"' :: cs2) = some (vObj [(String.mk k, v)], r4) := by
  rw [parseVal.eq_def]
  simp [hkey, hval]

theorem parseVal_obj_more (f : Nat) (cs2 r2 r4 r5 : List Char) (k : List Char)
    (v : JsValue) (ms : List (String × JsValue))
    (hkey : parseStrBody cs2 = some (k, ':' :: r2))
    (hval : parseVal f r2 = some (v, ',' :: r4))
    (hrest : parseVal f ('\x7b' :: r4) = some (vObj ms, r5)) :
    parseVal (f + 1) ('\x7b' :: '"' :: cs2) = some (vObj ((String.mk k, v) :: ms), r5) := by
  rw [parseVal.eq_def]
  simp [hkey, hval, hrest]

theorem parseVal_print_aux :
    ∀ n : Nat, ∀ v : JsValue, needV v ≤ n →
      ∀ (f : Nat) (rest : List Char), needV v ≤ f → headNonDigitB rest = true →
        parseVal f (printJsonL v ++ rest) = some (v, rest) := by
  intro n
  induction n with
  | zero =>
    intro v hv
    have := needV_pos v
    omega
  | succ n ih =>
    intro v hv f rest hf hrest
    obtain ⟨f', rfl⟩ : ∃ f', f = f' + 1 := by
      have := needV_pos v
      exact ⟨f - 1, by omega⟩
    cases v with
    | vNull =>
      show parseVal (f' + 1) ('n' :: 'u' :: 'l' :: 'l' :: rest) = _
      exact parseVal_null f' rest
    | vBool b =>
      cases b with
      | false =>
        show parseVal (f' + 1) ('f' :: 'a' :: 'l' :: 's' :: 'e' :: rest) = _
        exact parseVal_false f' rest
      | true =>
        show parseVal (f' + 1) ('t' :: 'r' :: 'u' :: 'e' :: rest) = _
        exact parseVal_true f' rest
    | vNum m =>
      obtain ⟨c0, cs0, hsplit⟩ : ∃ c0 cs0, intChars m = c0 :: cs0 := by
        match hx : intChars m, intChars_ne_nil m with
        | c :: cs, _ => exact ⟨c, cs, rfl⟩
      have hhead := intChars_head m c0 cs0 hsplit
      have hpr : printJsonL (vNum m) ++ rest = c0 :: (cs0 ++ rest) := by
        show intChars m ++ rest = _
        rw [hsplit]
        rfl
      rw [hpr, parseVal_num f' c0 (cs0 ++ rest) hhead]
      have hback : c0 :: (cs0 ++ rest) = intChars m ++ rest := by
        rw [hsplit]
        rfl
      rw [hback, parseNumL_intChars m rest hrest]
      rfl
    | vStr s =>
      have hpr : printJsonL (vStr s) ++ rest = '"' :: (escBody s.data ++ '"' :: rest) := by
        show strChars s.data ++ rest = _
        simp [strChars]
      rw [hpr, parseVal_str f' _, parseStrBody_escBody s.data rest]
      rfl
    | vArr xs =>
      cases xs with
      | nil =>
        show parseVal (f' + 1) ('[' :: ']' :: rest) = _
        exact parseVal_arr_nil f' rest
      | cons x xs =>
        have hmx1 := Nat.le_max_left (needV x) (needElems xs + 1)
        have hmx2 := Nat.le_max_right (needV x) (needElems xs + 1)
        simp only [needV, needElems] at hv hf
        have hxn : needV x ≤ n := by omega
        have hxf : needV x ≤ f' := by omega
        have hxsn : needV (vArr xs) ≤ n := by simp only [needV]; omega
        have hxsf : needV (vArr xs) ≤ f' := by simp only [needV]; omega
        obtain ⟨cx, tx, hx⟩ : ∃ cx tx, printJsonL x = cx :: tx := by
          match hy : printJsonL x, printJsonL_ne_nil x with
          | c :: cs, _ => exact ⟨c, cs, rfl⟩
        have hcx : cx ≠ ']' := printJsonL_head_ne_rbrack x cx tx hx
        have hsub : parseVal f' (cx :: (tx ++ (printElemsT xs ++ ']' :: rest)))
            = some (x, printElemsT xs ++ ']' :: rest) := by
          have h0 : cx :: (tx ++ (printElemsT xs ++ ']' :: rest))
              = printJsonL x ++ (printElemsT xs ++ ']' :: rest) := by
            rw [hx]
            rfl
          rw [h0]
          exact ih x hxn f' _ hxf (headNonDigitB_elemsT xs rest)
        have hpr : printJsonL (vArr (x :: xs)) ++ rest
            = '[' :: cx :: (tx ++ (printElemsT xs ++ ']' :: rest)) := by
          show ('[' :: ((printJsonL x ++ printElemsT xs) ++ [']'])) ++ rest = _
          rw [hx]
          simp [List.append_assoc]
        rw [hpr]
        cases xs with
        | nil =>
          simp only [printElemsT, List.nil_append] at hsub
          exact parseVal_arr_last f' cx _ rest x hcx hsub
        | cons y ys =>
          have hrw : printElemsT (y :: ys) ++ ']' :: rest
              = ',' :: (printJsonL y ++ (printElemsT ys ++ ']' :: rest)) := by
            show (',' :: (printJsonL y ++ printElemsT ys)) ++ ']' :: rest = _
            simp [List.append_assoc]
          rw [hrw] at hsub ⊢
          have h2 : parseVal f' ('[' :: (printJsonL y ++ (printElemsT ys ++ ']' :: rest)))
              = some (vArr (y :: ys), rest) := by
            have heq : '[' :: (printJsonL y ++ (printElemsT ys ++ ']' :: rest))
                = printJsonL (vArr (y :: ys)) ++ rest := by
              show _ = ('[' :: ((printJsonL y ++ printElemsT ys) ++ [']'])) ++ rest
              simp [List.append_assoc]
            rw [heq]
            exact ih (vArr (y :: ys)) hxsn f' rest hxsf hrest
          exact parseVal_arr_more f' cx _ _ x (y :: ys) rest hcx hsub h2
    | vObj fs =>
      cases fs with
      | nil =>
        show parseVal (f' + 1) ('\x7b' :: '\x7d' :: rest) = _
        exact parseVal_obj_nil f' rest
      | cons p ps =>
        obtain ⟨k, val⟩ := p
        have hmx1 := Nat.le_max_left (needV val) (needFields ps + 1)
        have hmx2 := Nat.le_max_right (needV val) (needFields ps + 1)
        simp only [needV, needFields] at hv hf
        have hvn : needV val ≤ n := by omega
        have hvf : needV val ≤ f' := by omega
        have hpsn : needV (vObj ps) ≤ n := by simp only [needV]; omega
        have hpsf : needV (vObj ps) ≤ f' := by simp only [needV]; omega
        have hkey : parseStrBody (escBody k.data ++ '"' ::
            (':' :: (printJsonL val ++ (printFieldsT ps ++ '\x7d' :: rest))))
            = some (k.data, ':' :: (printJsonL val ++ (printFieldsT ps ++ '\x7d' :: rest))) :=
          parseStrBody_escBody k.data _
        have hval : parseVal f' (printJsonL val ++ (printFieldsT ps ++ '\x7d' :: rest))
            = some (val, printFieldsT ps ++ '\x7d' :: rest) :=
          ih val hvn f' _ hvf (headNonDigitB_fieldsT ps rest)
        have hpr : printJsonL (vObj ((k, val) :: ps)) ++ rest
            = '\x7b' :: '"' :: (escBody k.data ++ '"' ::
                (':' :: (printJsonL val ++ (printFieldsT ps ++ '\x7d' :: rest)))) := by
          show ('\x7b' :: ((strChars k.data ++ ':' :: (printJsonL val ++ printFieldsT ps))
            ++ ['\x7d'])) ++ rest = _
          simp [strChars, List.append_assoc]
        rw [hpr]
        cases ps with
        | nil =>
          simp only [printFieldsT, List.nil_append] at hval
          exact parseVal_obj_last f' _ _ rest k.data val hkey hval
        | cons q qs =>
          have hrw : printFieldsT (q :: qs) ++ '\x7d' :: rest
              = ',' :: (strChars q.1.data ++ ':' ::
                  (printJsonL q.2 ++ (printFieldsT qs ++ '\x7d' :: rest))) := by
            show (',' :: (strChars q.1.data ++ ':' :: (printJsonL q.2 ++ printFieldsT qs)))
              ++ '\x7d' :: rest = _
            simp [List.append_assoc]
          rw [hrw] at hval hkey ⊢
          have h2 : parseVal f' ('\x7b' :: (strChars q.1.data ++ ':' ::
              (printJsonL q.2 ++ (printFieldsT qs ++ '\x7d' :: rest))))
              = some (vObj (q :: qs), rest) := by
            have heq : '\x7b' :: (strChars q.1.data ++ ':' ::
                (printJsonL q.2 ++ (printFieldsT qs ++ '\x7d' :: rest)))
                = printJsonL (vObj (q :: qs)) ++ rest := by
              show _ = ('\x7b' :: ((strChars q.1.data ++ ':' ::
                (printJsonL q.2 ++ printFieldsT qs)) ++ ['\x7d'])) ++ rest
              simp [List.append_assoc]
            rw [heq]
            exact ih (vObj (q :: qs)) hpsn f' rest hpsf hrest
          exact parseVal_obj_more f' _ _ _ _ k.data val (q :: qs) hkey hval h2

theorem needV_le_len (v : JsValue) : needV v ≤ (printJsonL v).length := by
  induction v using JsValue.memberInduction with
  | h1 => simp [needV, printJsonL]
  | h2 b => cases b <;> simp [needV, printJsonL]
  | h3 n =>
    have := List.length_pos.mpr (intChars_ne_nil n)
    simp only [needV, printJsonL]
    omega
  | h4 s => simp [needV, printJsonL, strChars]
  | h5 xs hmem =>
    have key : needElems xs ≤ (printElemsT xs).length := by
      induction xs with
      | nil => simp [needElems, printElemsT]
      | cons y ys ihy =>
        have h1 : needV y ≤ (printJsonL y).length := hmem y (by simp)
        have h2 : needElems ys ≤ (printElemsT ys).length :=
          ihy (fun z hz => hmem z (by simp [hz]))
        have hpos : 1 ≤ (printJsonL y).length :=
          List.length_pos.mpr (printJsonL_ne_nil y)
        have hmx := Nat.max_le.mpr
          (⟨by omega, by omega⟩ :
            needV y ≤ (printJsonL y).length + (printElemsT ys).length ∧
            needElems ys + 1 ≤ (printJsonL y).length + (printElemsT ys).length)
        simp only [needElems, printElemsT, List.length_cons, List.length_append]
        omega
    have hLT : (printElemsT xs).length ≤ (printElemsL xs).length + 1 := by
      cases xs with
      | nil => simp [printElemsT, printElemsL]
      | cons y ys =>
        simp only [printElemsT, printElemsL, List.length_cons, List.length_append]
        omega
    simp only [needV, printJsonL, List.length_cons, List.length_append, List.length_singleton]
    omega
  | h6 fs hmem =>
    have key : needFields fs ≤ (printFieldsT fs).length := by
      induction fs with
      | nil => simp [needFields, printFieldsT]
      | cons q qs ihq =>
        have h1 : needV q.2 ≤ (printJsonL q.2).length := hmem q (by simp)
        have h2 : needFields qs ≤ (printFieldsT qs).length :=
          ihq (fun z hz => hmem z (by simp [hz]))
        have hpos : 1 ≤ (printJsonL q.2).length :=
          List.length_pos.mpr (printJsonL_ne_nil q.2)
        have hstr : 2 ≤ (strChars q.1.data).length := by
          simp [strChars]
        have hmx := Nat.max_le.mpr
          (⟨by omega, by omega⟩ :
            needV q.2 ≤ (strChars q.1.data).length + (printJsonL q.2).length
              + (printFieldsT qs).length ∧
            needFields qs + 1 ≤ (strChars q.1.data).length + (printJsonL q.2).length
              + (printFieldsT qs).length)
        simp only [needFields, printFieldsT, List.length_cons, List.length_append]
        omega
    have hLT : (printFieldsT fs).length ≤ (printFieldsL fs).length + 1 := by
      cases fs with
      | nil => simp [printFieldsT, printFieldsL]
      | cons q qs =>
        simp only [printFieldsT, printFieldsL, List.length_cons, List.length_append]
        omega
    simp only [needV, printJsonL, List.length_cons, List.length_append, List.length_singleton]
    omega

/-- `JSON.parse` inverts `JSON.stringify` on every modelled value: the
cache read deserializes exactly the value the cache write serialized. -/
theorem jsonParse_jsonStringify (v : JsValue) : jsonParse (jsonStringify v) = some v := by
  have hfuel : needV v ≤ (printJsonL v).length + 1 :=
    le_trans (needV_le_len v) (by omega)
  have h := parseVal_print_aux (needV v) v le_rfl ((printJsonL v).length + 1) [] hfuel rfl
  simp only [List.append_nil] at h
  unfold jsonParse jsonStringify
  show (match parseVal ((printJsonL v).length + 1) (printJsonL v) with
    | some (v, []) => some v
    | _ => none) = some v
  rw [h]

/-! The `json-stable-stringify` model: serialization with object keys
sorted by the default array-sort comparison (code-unit order), used by
`generateRedisKey` for deterministic cache keys. -/

mutual

/-- Structural size of a value, usable as serialization fuel. -/
def jsize : JsValue → Nat
  | vNull => 1
  | vBool _ => 1
  | vNum _ => 1
  | vStr _ => 1
  | vArr xs => jsizeL xs + 1
  | vObj fs => jsizeF fs + 1

/-- Structural size of an element list. -/
def jsizeL : List JsValue → Nat
  | [] => 1
  | x :: xs => jsize x + jsizeL xs + 1

/-- Structural size of a field list. -/
def jsizeF : List (String × JsValue) → Nat
  | [] => 1
  | p :: ps => jsize p.2 + jsizeF ps + 1

end

/-- Lexicographic comparison of character lists by code point, the order
JavaScript's default `Array.prototype.sort` applies to keys. -/
def charListLe : List Char → List Char → Bool
  | [], _ => true
  | _ :: _, [] => false
  | a :: as2, b :: bs =>
    if a.toNat < b.toNat then true
    else if b.toNat < a.toNat then false
    else charListLe as2 bs

/-- The key order used when canonicalizing objects. -/
def keyLe (a b : String) : Prop := charListLe a.data b.data = true

instance : DecidableRel keyLe := fun a b => by
  unfold keyLe
  infer_instance

theorem charListLe_total : ∀ x y : List Char,
    charListLe x y = true ∨ charListLe y x = true := by
  intro x
  induction x with
  | nil => intro y; left; rfl
  | cons a as2 ih =>
    intro y
    cases y with
    | nil => right; rfl
    | cons b bs =>
      rcases Nat.lt_trichotomy a.toNat b.toNat with h | h | h
      · left; simp [charListLe, h]
      · have h1 : ¬ a.toNat < b.toNat := by omega
        have h2 : ¬ b.toNat < a.toNat := by omega
        rcases ih bs with h3 | h3
        · left; simp [charListLe, h1, h2, h3]
        · right; simp [charListLe, h1, h2, h3]
      · right; simp [charListLe, h]

theorem charListLe_trans : ∀ x y z : List Char, charListLe x y = true →
    charListLe y z = true → charListLe x z = true := by
  intro x
  induction x with
  | nil => intro y z _ _; rfl
  | cons a as2 ih =>
    intro y z h1 h2
    cases y with
    | nil => simp [charListLe] at h1
    | cons b bs =>
      cases z with
      | nil => simp [charListLe] at h2
      | cons c cs =>
        by_cases hab : a.toNat < b.toNat
        · by_cases hbc : b.toNat < c.toNat
          · simp [charListLe, show a.toNat < c.toNat by omega]
          · by_cases hcb : c.toNat < b.toNat
            · simp [charListLe, hbc, hcb] at h2
            · simp [charListLe, show a.toNat < c.toNat by omega]
        · by_cases hba : b.toNat < a.toNat
          · simp [charListLe, hab, hba] at h1
          · by_cases hbc : b.toNat < c.toNat
            · simp [charListLe, show a.toNat < c.toNat by omega]
            · by_cases hcb : c.toNat < b.toNat
              · simp [charListLe, hbc, hcb] at h2
              · have hax : ¬ a.toNat < c.toNat := by omega
                have hcx : ¬ c.toNat < a.toNat := by omega
                simp only [charListLe, if_neg hab, if_neg hba] at h1
                simp only [charListLe, if_neg hbc, if_neg hcb] at h2
                simp [charListLe, hax, hcx, ih bs cs h1 h2]

theorem char_toNat_inj (a b : Char) (h : a.toNat = b.toNat) : a = b := by
  have := congrArg Char.ofNat h
  rwa [Char.ofNat_toNat, Char.ofNat_toNat] at this

theorem charListLe_antisymm : ∀ x y : List Char, charListLe x y = true →
    charListLe y x = true → x = y := by
  intro x
  induction x with
  | nil =>
    intro y _ h2
    cases y with
    | nil => rfl
    | cons b bs => simp [charListLe] at h2
  | cons a as2 ih =>
    intro y h1 h2
    cases y with
    | nil => simp [charListLe] at h1
    | cons b bs =>
      by_cases hab : a.toNat < b.toNat
      · simp [charListLe, show ¬ b.toNat < a.toNat by omega, hab] at h2
      · by_cases hba : b.toNat < a.toNat
        · simp [charListLe, hab, hba] at h1
        · have hchar : a = b := char_toNat_inj a b (by omega)
          simp only [charListLe, if_neg hab, if_neg hba] at h1 h2
          rw [hchar, ih bs h1 h2]

instance : IsTotal String keyLe :=
  ⟨fun a b => charListLe_total a.data b.data⟩

instance : IsTrans String keyLe :=
  ⟨fun a b c => charListLe_trans a.data b.data c.data⟩

instance : IsAntisymm String keyLe := by
  constructor
  intro a b h1 h2
  have hd := charListLe_antisymm a.data b.data h1 h2
  have := congrArg String.mk hd
  exact this

/-- Keys of an object, sorted with the default sort order; this is the
iteration order `json-stable-stringify` serializes fields in. -/
def sortedKeys (fs : List (String × JsValue)) : List String :=
  List.insertionSort keyLe (fs.map Prod.fst)

/-- Indexing `node[key]` during stable serialization. -/
def alGetD (fs : List (String × JsValue)) (k : String) : JsValue :=
  (alGet fs k).getD vNull

/-- Comma-join a list of character lists. -/
def joinComma : List (List Char) → List Char
  | [] => []
  | [x] => x
  | x :: y :: rest => x ++ ',' :: joinComma (y :: rest)

/-- Fueled `json-stable-stringify`: like `JSON.stringify` but object
keys are sorted before serialization. -/
def stableJ : Nat → JsValue → List Char
  | 0, _ => []
  | f + 1, v =>
    match v with
    | vNull => ['n', 'u', 'l', 'l']
    | vBool b => if b then ['t', 'r', 'u', 'e'] else ['f', 'a', 'l', 's', 'e']
    | vNum n => intChars n
    | vStr s => strChars s.data
    | vArr xs => '[' :: (joinComma (xs.map (stableJ f)) ++ [']'])
    | vObj fs =>
      '\x7b' :: (joinComma ((sortedKeys fs).map
        (fun k => strChars k.data ++ ':' :: stableJ f (alGetD fs k))) ++ ['\x7d'])

/-- `json-stable-stringify` of a value, as a character list. -/
def stableStringifyL (v : JsValue) : List Char := stableJ (jsize v) v

/-- `json-stable-stringify` of a value. -/
def stableStringify (v : JsValue) : String := String.mk (stableStringifyL v)

example : stableStringify (vObj [("b", vNum 2), ("a", vNum 1)]) =
    "\x7b\"a\":1,\"b\":2\x7d" := rfl
example : stableStringify (vObj [("a", vNum 1), ("b", vNum 2)]) =
    "\x7b\"a\":1,\"b\":2\x7d" := rfl

theorem jsize_pos (v : JsValue) : 1 ≤ jsize v := by
  cases v <;> simp [jsize]

theorem jsizeL_mem : ∀ (xs : List JsValue) (x : JsValue), x ∈ xs → jsize x < jsizeL xs := by
  intro xs
  induction xs with
  | nil => intro x h; simp at h
  | cons y ys ih =>
    intro x h
    rcases List.mem_cons.mp h with h | h
    · subst h; simp [jsizeL]; omega
    · have := ih x h
      simp [jsizeL]
      omega

theorem jsizeF_mem : ∀ (fs : List (String × JsValue)) (p : String × JsValue),
    p ∈ fs → jsize p.2 < jsizeF fs := by
  intro fs
  induction fs with
  | nil => intro p h; simp at h
  | cons q qs ih =>
    intro p h
    rcases List.mem_cons.mp h with h | h
    · subst h; simp [jsizeF]; omega
    · have := ih p h
      simp [jsizeF]
      omega

theorem alGet_mem {α : Type} : ∀ (l : List (String × α)) (k : String) (v : α),
    alGet l k = some v → (k, v) ∈ l := by
  intro l
  induction l with
  | nil => intro k v h; simp [alGet] at h
  | cons q qs ih =>
    intro k v h
    obtain ⟨k', w⟩ := q
    by_cases hk : k' = k
    · subst hk
      simp [alGet] at h
      simp [h]
    · simp [alGet, hk] at h
      exact List.mem_cons_of_mem _ (ih k v h)

theorem mem_keys_exists {α : Type} : ∀ (l : List (String × α)) (k : String),
    k ∈ l.map Prod.fst → ∃ v, alGet l k = some v := by
  intro l
  induction l with
  | nil => intro k h; simp at h
  | cons q qs ih =>
    intro k h
    obtain ⟨k', w⟩ := q
    by_cases hk : k' = k
    · exact ⟨w, by simp [alGet, hk]⟩
    · have h2 : k ∈ qs.map Prod.fst := by
        rcases List.mem_map.mp h with ⟨p, hp, he⟩
        rcases List.mem_cons.mp hp with hp | hp
        · rw [hp] at he
          exact absurd he hk
        · exact List.mem_map.mpr ⟨p, hp, he⟩
      obtain ⟨v, hv⟩ := ih k h2
      exact ⟨v, by simp [alGet, hk, hv]⟩

theorem mem_sortedKeys (fs : List (String × JsValue)) (k : String) :
    k ∈ sortedKeys fs ↔ k ∈ fs.map Prod.fst :=
  (List.perm_insertionSort keyLe (fs.map Prod.fst)).mem_iff

theorem alGetD_size (fs : List (String × JsValue)) (k : String)
    (h : k ∈ fs.map Prod.fst) : jsize (alGetD fs k) < jsize (vObj fs) := by
  obtain ⟨v, hv⟩ := mem_keys_exists fs k h
  have hmem := alGet_mem fs k v hv
  have h2 : jsize v < jsizeF fs := jsizeF_mem fs (k, v) hmem
  simp only [alGetD, hv, Option.getD_some, jsize]
  omega

theorem stableJ_fuel : ∀ f g : Nat, ∀ v : JsValue, jsize v ≤ f → jsize v ≤ g →
    stableJ f v = stableJ g v := by
  intro f
  induction f with
  | zero =>
    intro g v h
    have := jsize_pos v
    omega
  | succ f ih =>
    intro g v hf hg
    obtain ⟨g', rfl⟩ : ∃ g', g = g' + 1 := by
      have := jsize_pos v
      exact ⟨g - 1, by omega⟩
    cases v with
    | vNull => rfl
    | vBool b => rfl
    | vNum n => rfl
    | vStr s => rfl
    | vArr xs =>
      simp only [stableJ]
      have hmap : List.map (stableJ f) xs = List.map (stableJ g') xs := by
        apply List.map_congr_left
        intro x hx
        have hs := jsizeL_mem xs x hx
        simp only [jsize] at hf hg
        exact ih g' x (by omega) (by omega)
      rw [hmap]
    | vObj fs =>
      simp only [stableJ]
      have hmap : List.map (fun k => strChars k.data ++ ':' :: stableJ f (alGetD fs k))
          (sortedKeys fs)
          = List.map (fun k => strChars k.data ++ ':' :: stableJ g' (alGetD fs k))
            (sortedKeys fs) := by
        apply List.map_congr_left
        intro k hk
        have hs := alGetD_size fs k ((mem_sortedKeys fs k).mp hk)
        simp only [jsize] at hs hf hg
        have := ih g' (alGetD fs k) (by omega) (by omega)
        rw [this]
      rw [hmap]

theorem stableStringifyL_arr (xs : List JsValue) :
    stableStringifyL (vArr xs) = '[' :: (joinComma (xs.map stableStringifyL) ++ [']']) := by
  show stableJ (jsizeL xs + 1) (vArr xs) = _
  simp only [stableJ]
  have hmap : List.map (stableJ (jsizeL xs)) xs = List.map stableStringifyL xs := by
    apply List.map_congr_left
    intro x hx
    have hs := jsizeL_mem xs x hx
    exact stableJ_fuel (jsizeL xs) (jsize x) x (by omega) le_rfl
  rw [hmap]

theorem stableStringifyL_obj (fs : List (String × JsValue)) :
    stableStringifyL (vObj fs) = '\x7b' :: (joinComma ((sortedKeys fs).map
      (fun k => strChars k.data ++ ':' :: stableStringifyL (alGetD fs k))) ++ ['\x7d']) := by
  show stableJ (jsizeF fs + 1) (vObj fs) = _
  simp only [stableJ]
  have hmap : List.map (fun k => strChars k.data ++ ':' :: stableJ (jsizeF fs) (alGetD fs k))
      (sortedKeys fs)
      = List.map (fun k => strChars k.data ++ ':' :: stableStringifyL (alGetD fs k))
        (sortedKeys fs) := by
    apply List.map_congr_left
    intro k hk
    have hs := alGetD_size fs k ((mem_sortedKeys fs k).mp hk)
    simp only [jsize] at hs
    have := stableJ_fuel (jsizeF fs) (jsize (alGetD fs k)) (alGetD fs k) (by omega) le_rfl
    rw [this]
    rfl
  rw [hmap]

mutual

/-- Deep equality of JavaScript values up to object-key insertion order:
atoms agree, arrays agree pointwise, and objects have the same number of
fields with every field of the left object present in the right object
with a deeply equal value. -/
def jsEqb : JsValue → JsValue → Bool
  | vNull, vNull => true
  | vBool a, vBool b => a == b
  | vNum a, vNum b => a == b
  | vStr a, vStr b => a == b
  | vArr a, vArr b => jsEqbL a b
  | vObj a, vObj b => a.length == b.length && jsEqbF a b
  | _, _ => false

/-- Pointwise deep equality of element lists. -/
def jsEqbL : List JsValue → List JsValue → Bool
  | [], [] => true
  | x :: xs, y :: ys => jsEqb x y && jsEqbL xs ys
  | _, _ => false

/-- Every field of the first list matches a field of the second by key,
with deeply equal value. -/
def jsEqbF : List (String × JsValue) → List (String × JsValue) → Bool
  | [], _ => true
  | p :: ps, fb =>
    (match alGet fb p.1 with
     | some w => jsEqb p.2 w
     | none => false) && jsEqbF ps fb

end

/-- No duplicate keys in a key list (JavaScript objects cannot have
duplicate own property names). -/
def nodupKeys : List String → Bool
  | [] => true
  | k :: ks => !(ks.contains k) && nodupKeys ks

mutual

/-- Well-formedness: every object that occurs in the value has
duplicate-free keys, as is true of every real JavaScript object. -/
def wfJs : JsValue → Bool
  | vNull => true
  | vBool _ => true
  | vNum _ => true
  | vStr _ => true
  | vArr xs => wfJsL xs
  | vObj fs => nodupKeys (fs.map Prod.fst) && wfJsF fs

/-- Well-formedness of every element. -/
def wfJsL : List JsValue → Bool
  | [] => true
  | x :: xs => wfJs x && wfJsL xs

/-- Well-formedness of every field value. -/
def wfJsF : List (String × JsValue) → Bool
  | [] => true
  | p :: ps => wfJs p.2 && wfJsF ps

end

theorem nodupKeys_iff : ∀ ks : List String, nodupKeys ks = true ↔ ks.Nodup := by
  intro ks
  induction ks with
  | nil => simp [nodupKeys]
  | cons k ks ih =>
    simp [nodupKeys, ih, List.elem_iff]

theorem jsEqbF_forall : ∀ (fa fb : List (String × JsValue)), jsEqbF fa fb = true →
    ∀ p ∈ fa, ∃ w, alGet fb p.1 = some w ∧ jsEqb p.2 w = true := by
  intro fa
  induction fa with
  | nil => intro fb _ p hp; simp at hp
  | cons q qs ih =>
    intro fb h p hp
    simp only [jsEqbF, Bool.and_eq_true] at h
    rcases List.mem_cons.mp hp with hp | hp
    · subst hp
      obtain ⟨h1, _⟩ := h
      cases halg : alGet fb p.1 with
      | none => rw [halg] at h1; simp at h1
      | some w =>
        rw [halg] at h1
        exact ⟨w, rfl, h1⟩
    · exact ih fb h.2 p hp

theorem jsEqbF_of_forall : ∀ (fa fb : List (String × JsValue)),
    (∀ p ∈ fa, ∃ w, alGet fb p.1 = some w ∧ jsEqb p.2 w = true) → jsEqbF fa fb = true := by
  intro fa
  induction fa with
  | nil => intro fb _; rfl
  | cons q qs ih =>
    intro fb h
    obtain ⟨w, hw, hq⟩ := h q (by simp)
    simp only [jsEqbF, Bool.and_eq_true, hw, hq]
    exact ⟨trivial, ih fb (fun p hp => h p (by simp [hp]))⟩

theorem alGet_eq_of_mem_nodup {α : Type} : ∀ (l : List (String × α)) (k : String) (v : α),
    (k, v) ∈ l → nodupKeys (l.map Prod.fst) = true → alGet l k = some v := by
  intro l
  induction l with
  | nil => intro k v h; simp at h
  | cons q qs ih =>
    intro k v h hnd
    obtain ⟨k', w⟩ := q
    simp only [List.map_cons, nodupKeys, Bool.and_eq_true, Bool.not_eq_true'] at hnd
    rcases List.mem_cons.mp h with h | h
    · injection h with hk hv
      subst hk
      subst hv
      simp [alGet]
    · have hk : k' ≠ k := by
        intro hk
        subst hk
        have hm : k' ∈ qs.map Prod.fst := List.mem_map.mpr ⟨(k', v), h, rfl⟩
        have hc : List.elem k' (qs.map Prod.fst) = false := hnd.1
        have ht : List.elem k' (qs.map Prod.fst) = true := List.elem_iff.mpr hm
        rw [ht] at hc
        exact Bool.noConfusion hc
      simp [alGet, hk, ih k v h hnd.2]

theorem wfJsF_mem : ∀ (fs : List (String × JsValue)) (p : String × JsValue),
    p ∈ fs → wfJsF fs = true → wfJs p.2 = true := by
  intro fs
  induction fs with
  | nil => intro p h; simp at h
  | cons q qs ih =>
    intro p h hwf
    simp only [wfJsF, Bool.and_eq_true] at hwf
    rcases List.mem_cons.mp h with h | h
    · subst h; exact hwf.1
    · exact ih p h hwf.2

theorem wfJsL_mem : ∀ (xs : List JsValue) (x : JsValue),
    x ∈ xs → wfJsL xs = true → wfJs x = true := by
  intro xs
  induction xs with
  | nil => intro x h; simp at h
  | cons y ys ih =>
    intro x h hwf
    simp only [wfJsL, Bool.and_eq_true] at hwf
    rcases List.mem_cons.mp h with h | h
    · subst h; exact hwf.1
    · exact ih x h hwf.2

/-- Canonicalization is invariant under deep equality up to key order:
deeply equal well-formed values stable-stringify identically. -/
theorem stable_eq_of_jsEqb :
    ∀ a b : JsValue, wfJs a = true → wfJs b = true → jsEqb a b = true →
      stableStringifyL a = stableStringifyL b := by
  intro a
  induction a using JsValue.memberInduction with
  | h1 =>
    intro b _ _ heq
    cases b with
    | vNull => rfl
    | vBool x => simp [jsEqb] at heq
    | vNum x => simp [jsEqb] at heq
    | vStr x => simp [jsEqb] at heq
    | vArr x => simp [jsEqb] at heq
    | vObj x => simp [jsEqb] at heq
  | h2 x =>
    intro b _ _ heq
    cases b with
    | vBool y =>
      simp only [jsEqb, beq_iff_eq] at heq
      rw [heq]
    | vNull => simp [jsEqb] at heq
    | vNum y => simp [jsEqb] at heq
    | vStr y => simp [jsEqb] at heq
    | vArr y => simp [jsEqb] at heq
    | vObj y => simp [jsEqb] at heq
  | h3 x =>
    intro b _ _ heq
    cases b with
    | vNum y =>
      simp only [jsEqb, beq_iff_eq] at heq
      rw [heq]
    | vNull => simp [jsEqb] at heq
    | vBool y => simp [jsEqb] at heq
    | vStr y => simp [jsEqb] at heq
    | vArr y => simp [jsEqb] at heq
    | vObj y => simp [jsEqb] at heq
  | h4 x =>
    intro b _ _ heq
    cases b with
    | vStr y =>
      simp only [jsEqb, beq_iff_eq] at heq
      rw [heq]
    | vNull => simp [jsEqb] at heq
    | vBool y => simp [jsEqb] at heq
    | vNum y => simp [jsEqb] at heq
    | vArr y => simp [jsEqb] at heq
    | vObj y => simp [jsEqb] at heq
  | h5 xs hmem =>
    intro b hwa hwb heq
    cases b with
    | vArr ys =>
      simp only [jsEqb] at heq
      rw [stableStringifyL_arr, stableStringifyL_arr]
      have key : ∀ (xs' : List JsValue),
          (∀ x ∈ xs', ∀ b, wfJs x = true → wfJs b = true → jsEqb x b = true →
            stableStringifyL x = stableStringifyL b) →
          ∀ ys', wfJsL xs' = true → wfJsL ys' = true → jsEqbL xs' ys' = true →
            List.map stableStringifyL xs' = List.map stableStringifyL ys' := by
        intro xs'
        induction xs' with
        | nil =>
          intro _ ys' _ _ heq2
          cases ys' with
          | nil => rfl
          | cons y ys2 => simp [jsEqbL] at heq2
        | cons x xs2 ihx =>
          intro hIH ys' hwx hwy heq2
          cases ys' with
          | nil => simp [jsEqbL] at heq2
          | cons y ys2 =>
            simp only [jsEqbL, Bool.and_eq_true] at heq2
            simp only [wfJsL, Bool.and_eq_true] at hwx hwy
            simp only [List.map_cons]
            rw [hIH x (by simp) y hwx.1 hwy.1 heq2.1,
              ihx (fun z hz => hIH z (by simp [hz])) ys2 hwx.2 hwy.2 heq2.2]
      rw [key xs hmem ys (by simpa [wfJs] using hwa) (by simpa [wfJs] using hwb) heq]
    | vNull => simp [jsEqb] at heq
    | vBool y => simp [jsEqb] at heq
    | vNum y => simp [jsEqb] at heq
    | vStr y => simp [jsEqb] at heq
    | vObj y => simp [jsEqb] at heq
  | h6 fs hmem =>
    intro b hwa hwb heq
    cases b with
    | vObj gs =>
      simp only [jsEqb, Bool.and_eq_true, beq_iff_eq] at heq
      obtain ⟨hlen, hF⟩ := heq
      simp only [wfJs, Bool.and_eq_true] at hwa hwb
      obtain ⟨hndA, hwfA⟩ := hwa
      obtain ⟨hndB, hwfB⟩ := hwb
      have hforall := jsEqbF_forall fs gs hF
      have hsub : fs.map Prod.fst ⊆ gs.map Prod.fst := by
        intro k hk
        obtain ⟨v, hv⟩ := mem_keys_exists fs k hk
        obtain ⟨w, hw, _⟩ := hforall (k, v) (alGet_mem _ _ _ hv)
        exact List.mem_map.mpr ⟨(k, w), alGet_mem _ _ _ hw, rfl⟩
      have hndA2 := (nodupKeys_iff _).mp hndA
      have hperm : List.Perm (fs.map Prod.fst) (gs.map Prod.fst) := by
        have hsp := List.Nodup.subperm hndA2 hsub
        apply hsp.perm_of_length_le
        simp [hlen]
      have hkeys : sortedKeys fs = sortedKeys gs := by
        have hp2 : List.Perm (sortedKeys fs) (sortedKeys gs) :=
          ((List.perm_insertionSort keyLe _).trans hperm).trans
            (List.perm_insertionSort keyLe _).symm
        have hs1 : List.Sorted keyLe (sortedKeys fs) := List.sorted_insertionSort keyLe _
        have hs2 : List.Sorted keyLe (sortedKeys gs) := List.sorted_insertionSort keyLe _
        exact List.eq_of_perm_of_sorted hp2 hs1 hs2
      rw [stableStringifyL_obj, stableStringifyL_obj, hkeys]
      have hmapeq : List.map (fun k => strChars k.data ++ ':' ::
          stableStringifyL (alGetD fs k)) (sortedKeys gs)
          = List.map (fun k => strChars k.data ++ ':' ::
            stableStringifyL (alGetD gs k)) (sortedKeys gs) := by
        apply List.map_congr_left
        intro k hk
        have hkA : k ∈ fs.map Prod.fst := by
          rw [← hkeys] at hk
          exact (mem_sortedKeys fs k).mp hk
        obtain ⟨v, hv⟩ := mem_keys_exists fs k hkA
        obtain ⟨w, hw, hvw⟩ := hforall (k, v) (alGet_mem _ _ _ hv)
        have heqv := hmem (k, v) (alGet_mem _ _ _ hv) w
          (wfJsF_mem fs (k, v) (alGet_mem _ _ _ hv) hwfA)
          (wfJsF_mem gs (k, w) (alGet_mem _ _ _ hw) hwfB) hvw
        simp only [alGetD, hv, hw, Option.getD_some]
        rw [heqv]
      rw [hmapeq]
    | vNull => simp [jsEqb] at heq
    | vBool y => simp [jsEqb] at heq
    | vNum y => simp [jsEqb] at heq
    | vStr y => simp [jsEqb] at heq
    | vArr y => simp [jsEqb] at heq

/-- Fields of the JavaScript `arguments` object: own enumerable
properties are the stringified indices `"0"`, `"1"`, ... bound to the
call's arguments. -/
def argsFields : Nat → List JsValue → List (String × JsValue)
  | _, [] => []
  | i, a :: rest => (String.mk (natChars i), a) :: argsFields (i + 1) rest

/-- The `arguments` object of a call, as serialized by
`json-stable-stringify` (it is object-shaped, not an array). -/
def argsObject (args : List JsValue) : JsValue := vObj (argsFields 0 args)

/-- `generateRedisKey`: the cache key is the function name, a colon, and
the stable serialization of the `arguments` object. -/
def generateRedisKey (fname : String) (args : List JsValue) : String :=
  fname ++ ":" ++ stableStringify (argsObject args)

example : generateRedisKey "getUser" [vStr "bob", vNum 7]
    = "getUser:\x7b\"0\":\"bob\",\"1\":7\x7d" := rfl

theorem natChars_inj (i j : Nat) (h : natChars i = natChars j) : i = j := by
  have h1 := digsVal_natChars i
  have h2 := digsVal_natChars j
  rw [h] at h1
  omega

theorem strMk_natChars_inj (i j : Nat) (h : String.mk (natChars i) = String.mk (natChars j)) :
    i = j := by
  apply natChars_inj
  exact congrArg String.data h

theorem argsFields_length : ∀ (l : List JsValue) (i : Nat),
    (argsFields i l).length = l.length := by
  intro l
  induction l with
  | nil => intro i; rfl
  | cons a rest ih => intro i; simp [argsFields, ih]

theorem alGet_argsFields : ∀ (l : List JsValue) (i j : Nat) (h : j < l.length),
    alGet (argsFields i l) (String.mk (natChars (i + j))) = some (l.get ⟨j, h⟩) := by
  intro l
  induction l with
  | nil => intro i j h; simp at h
  | cons a rest ih =>
    intro i j h
    cases j with
    | zero =>
      show alGet ((String.mk (natChars i), a) :: _) (String.mk (natChars i)) = some a
      simp [alGet]
    | succ j =>
      have hne : String.mk (natChars i) ≠ String.mk (natChars (i + (j + 1))) := by
        intro hx
        have := strMk_natChars_inj _ _ hx
        omega
      show alGet ((String.mk (natChars i), a) :: argsFields (i + 1) rest) _ = _
      simp only [alGet, if_neg hne]
      have harith : i + (j + 1) = (i + 1) + j := by omega
      rw [harith]
      exact ih (i + 1) j (by simpa using h)

theorem argsFields_mem : ∀ (l : List JsValue) (i : Nat) (p : String × JsValue),
    p ∈ argsFields i l →
      ∃ j, ∃ h : j < l.length, p = (String.mk (natChars (i + j)), l.get ⟨j, h⟩) := by
  intro l
  induction l with
  | nil => intro i p h; simp [argsFields] at h
  | cons a rest ih =>
    intro i p h
    rcases List.mem_cons.mp h with h | h
    · exact ⟨0, by simp, by simpa using h⟩
    · obtain ⟨j, hj, hp⟩ := ih (i + 1) p h
      refine ⟨j + 1, by simpa using hj, ?_⟩
      have harith : (i + 1) + j = i + (j + 1) := by omega
      rw [hp, harith]
      rfl

theorem argsFields_nodup : ∀ (l : List JsValue) (i : Nat),
    nodupKeys ((argsFields i l).map Prod.fst) = true := by
  intro l
  induction l with
  | nil => intro i; rfl
  | cons a rest ih =>
    intro i
    simp only [argsFields, List.map_cons, nodupKeys, Bool.and_eq_true, Bool.not_eq_true']
    refine ⟨?_, ih (i + 1)⟩
    by_cases hc : List.elem (String.mk (natChars i)) ((argsFields (i + 1) rest).map Prod.fst)
      = true
    · exfalso
      have hm := List.elem_iff.mp hc
      obtain ⟨p, hp, he⟩ := List.mem_map.mp hm
      obtain ⟨j, hj, hpe⟩ := argsFields_mem rest (i + 1) p hp
      rw [hpe] at he
      have := strMk_natChars_inj _ _ he
      omega
    · simpa using hc

theorem argsFields_wf : ∀ (l : List JsValue) (i : Nat), wfJsL l = true →
    wfJsF (argsFields i l) = true := by
  intro l
  induction l with
  | nil => intro i _; rfl
  | cons a rest ih =>
    intro i h
    simp only [wfJsL, Bool.and_eq_true] at h
    simp only [argsFields, wfJsF, Bool.and_eq_true]
    exact ⟨h.1, ih (i + 1) h.2⟩

theorem argsObject_wf (l : List JsValue) (h : wfJsL l = true) :
    wfJs (argsObject l) = true := by
  simp only [argsObject, wfJs, Bool.and_eq_true]
  exact ⟨argsFields_nodup l 0, argsFields_wf l 0 h⟩

theorem jsEqbL_length : ∀ (A B : List JsValue), jsEqbL A B = true → A.length = B.length := by
  intro A
  induction A with
  | nil =>
    intro B h
    cases B with
    | nil => rfl
    | cons y ys => simp [jsEqbL] at h
  | cons x xs ih =>
    intro B h
    cases B with
    | nil => simp [jsEqbL] at h
    | cons y ys =>
      simp only [jsEqbL, Bool.and_eq_true] at h
      simp [ih ys h.2]

theorem jsEqbL_get : ∀ (A B : List JsValue), jsEqbL A B = true →
    ∀ (j : Nat) (hA : j < A.length) (hB : j < B.length),
      jsEqb (A.get ⟨j, hA⟩) (B.get ⟨j, hB⟩) = true := by
  intro A
  induction A with
  | nil => intro B h j hA; simp at hA
  | cons x xs ih =>
    intro B h j hA hB
    cases B with
    | nil => simp [jsEqbL] at h
    | cons y ys =>
      simp only [jsEqbL, Bool.and_eq_true] at h
      cases j with
      | zero => exact h.1
      | succ j => exact ih ys h.2 j (by simpa using hA) (by simpa using hB)

theorem argsObject_jsEqb (A B : List JsValue) (h : jsEqbL A B = true) :
    jsEqb (argsObject A) (argsObject B) = true := by
  have hlen := jsEqbL_length A B h
  simp only [argsObject, jsEqb, Bool.and_eq_true, beq_iff_eq]
  constructor
  · rw [argsFields_length, argsFields_length, hlen]
  · apply jsEqbF_of_forall
    intro p hp
    obtain ⟨j, hj, hpe⟩ := argsFields_mem A 0 p hp
    have hjB : j < B.length := by omega
    refine ⟨B.get ⟨j, hjB⟩, ?_, ?_⟩
    · rw [hpe]
      exact alGet_argsFields B 0 j hjB
    · rw [hpe]
      exact jsEqbL_get A B h j hj hjB

/-- Deeply equal argument sequences derive the same cache key. -/
theorem generateRedisKey_eq (fname : String) (A B : List JsValue)
    (hwA : wfJsL A = true) (hwB : wfJsL B = true) (h : jsEqbL A B = true) :
    generateRedisKey fname A = generateRedisKey fname B := by
  unfold generateRedisKey stableStringify
  rw [stable_eq_of_jsEqb (argsObject A) (argsObject B) (argsObject_wf A hwA)
    (argsObject_wf B hwB) (argsObject_jsEqb A B h)]

/-! The runtime model.  A `World` holds the Redis connection state (its
`status` string and keyspace) together with the module-level mutable
state of the library: the in-memory prefetch-timer table, the prefetch
ratio and log switch, plus observation traces (store operations actually
issued, wrapped-function invocation count, log lines). -/

/-- The reserved staleness-marker property name (`REQUEST_RESET_KEY`). -/
def REQUEST_RESET_KEY : String := "__stale__"

/-- A stored Redis entry: raw string value and remaining expiry in
seconds (`none` means no expiry). -/
structure RedisEntry where
  raw : String
  expiry : Option Nat
deriving DecidableEq

/-- A store operation actually issued to the Redis connection. -/
inductive StoreOp where
  | get : String → StoreOp
  | set : String → String → Option Nat → StoreOp
  | del : String → StoreOp
  | ttlq : String → StoreOp
  | keysq : String → StoreOp
deriving DecidableEq

/-- A pending one-shot timer: its id, the cache key whose entry it will
mark stale when it fires, and its delay in milliseconds. -/
structure TimerRec where
  id : Nat
  key : String
  delay : ℚ
deriving DecidableEq

/-- The world threaded through every modelled operation. -/
structure World where
  status : String
  store : List (String × RedisEntry)
  pending : List TimerRec
  timeoutIds : List (String × Nat)
  nextId : Nat
  ratioQ : ℚ
  logsDisabled : Bool
  fCount : Nat
  ops : List StoreOp
  logs : List String

/-- Per-invocation fault injection: `some e` makes the corresponding
Redis command reject with `e`. -/
structure Faults where
  getF : Option JsValue
  setF : Option JsValue
  delF : Option JsValue
  ttlF : Option JsValue
  keysF : Option JsValue

/-- All Redis commands succeed. -/
def noFaults : Faults := ⟨none, none, none, none, none⟩

/-- `isRedisActive`: the connection reports the ready state. -/
def isRedisActive (w : World) : Bool := w.status == "ready"

/-- The private `log` helper: muted when logs are disabled. -/
def logMsg (w : World) (msg : String) : World :=
  if w.logsDisabled then w else { w with logs := w.logs ++ [msg] }

/-- `redis.get`. -/
def redisGet (w : World) (flt : Faults) (key : String) :
    World × Except JsValue (Option String) :=
  let w2 := { w with ops := w.ops ++ [StoreOp.get key] }
  match flt.getF with
  | some e => (w2, Except.error e)
  | none => (w2, Except.ok ((alGet w.store key).map RedisEntry.raw))

/-- `redis.set`, with or without an `'ex'` expiry argument; a set with
no expiry removes any existing TTL. -/
def redisSet (w : World) (flt : Faults) (key val : String) (expiry : Option Nat) :
    World × Except JsValue Unit :=
  let w2 := { w with ops := w.ops ++ [StoreOp.set key val expiry] }
  match flt.setF with
  | some e => (w2, Except.error e)
  | none => ({ w2 with store := alSet w2.store key ⟨val, expiry⟩ }, Except.ok ())

/-- `redis.ttl`: remaining seconds, `-1` for no expiry, `-2` for a
missing key. -/
def redisTtlQ (w : World) (flt : Faults) (key : String) : World × Except JsValue Int :=
  let w2 := { w with ops := w.ops ++ [StoreOp.ttlq key] }
  match flt.ttlF with
  | some e => (w2, Except.error e)
  | none =>
    (w2, Except.ok (match alGet w.store key with
      | none => -2
      | some entry =>
        match entry.expiry with
        | none => -1
        | some t => (t : Int)))

/-- `redis.del`. -/
def redisDel (w : World) (flt : Faults) (key : String) : World × Except JsValue Unit :=
  let w2 := { w with ops := w.ops ++ [StoreOp.del key] }
  match flt.delF with
  | some e => (w2, Except.error e)
  | none => ({ w2 with store := alRemove w2.store key }, Except.ok ())

/-- Fueled glob matching for the patterns `redis.keys` accepts; `*`
matches any run of characters and `?` any single character. -/
def globMatchAux : Nat → List Char → List Char → Bool
  | 0, _, _ => false
  | f + 1, p, s =>
    match p with
    | [] => s.isEmpty
    | c :: ps =>
      if c = '*' then
        globMatchAux f ps s ||
          (match s with
           | [] => false
           | _ :: s2 => globMatchAux f (c :: ps) s2)
      else
        match s with
        | [] => false
        | d :: s2 => (if c = '?' then true else c == d) && globMatchAux f ps s2

/-- Glob matching of a whole key against a pattern. -/
def globMatch (pattern target : String) : Bool :=
  globMatchAux (pattern.data.length + target.data.length + 1) pattern.data target.data

example : globMatch "getUser:*user123*" "getUser:\x7b\"0\":\"user123\"\x7d" = true := rfl
example : globMatch "getUser:*user123*" "getUser:\x7b\"0\":\"user124\"\x7d" = false := rfl

/-- `redis.keys`: scan the keyspace for keys matching a glob. -/
def redisKeysQ (w : World) (flt : Faults) (pattern : String) :
    World × Except JsValue (List String) :=
  let w2 := { w with ops := w.ops ++ [StoreOp.keysq pattern] }
  match flt.keysF with
  | some e => (w2, Except.error e)
  | none => (w2, Except.ok ((w.store.map Prod.fst).filter (fun k => globMatch pattern k)))

/-- The value a caller of `readFromRedis` observes for a raw store
response: `JSON.parse` of the stored string, the raw string itself when
parsing throws, and `null` for a missing key (`JSON.parse(null)` is
`null`). -/
def readFromRedisVal (res : Option String) : JsValue :=
  match res with
  | none => vNull
  | some s =>
    match jsonParse s with
    | some v => v
    | none => vStr s

/-- `readFromRedis`: `redis.get` followed by a guarded `JSON.parse`,
falling back to the raw string (with a log) when parsing fails. -/
def readFromRedis (w : World) (flt : Faults) (key : String) :
    World × Except JsValue JsValue :=
  match redisGet w flt key with
  | (w2, Except.error e) => (w2, Except.error e)
  | (w2, Except.ok none) => (w2, Except.ok vNull)
  | (w2, Except.ok (some s)) =>
    match jsonParse s with
    | some v => (w2, Except.ok v)
    | none =>
      (logMsg (logMsg w2 "Error parsing redis data") "SyntaxError", Except.ok (vStr s))

/-- `clearPrefetchTimeout`: `clearTimeout` on the registered handle (a
no-op when none is registered or the timer already fired), then remove
the table entry. -/
def clearPrefetchTimeout (w : World) (key : String) : World :=
  match alGet w.timeoutIds key with
  | none => { w with timeoutIds := alRemove w.timeoutIds key }
  | some i =>
    { w with pending := w.pending.filter (fun t => t.id != i),
             timeoutIds := alRemove w.timeoutIds key }

/-- `setPrefetchTimeout`: cancel any registered timer for the key, then
arm a fresh one-shot timer with delay `ttl * prefetchRatio * 1000`
milliseconds. -/
def setPrefetchTimeout (w : World) (key : String) (ttl : Nat) : World :=
  let prefetchTimeout : ℚ := (ttl : ℚ) * w.ratioQ * 1000
  let w2 := if (alGet w.timeoutIds key).isSome then clearPrefetchTimeout w key else w
  { w2 with pending := w2.pending ++ [⟨w2.nextId, key, prefetchTimeout⟩],
            timeoutIds := alSet w2.timeoutIds key w2.nextId,
            nextId := w2.nextId + 1 }

/-- The string actually written for a value: objects (including arrays
and `null`) are `JSON.stringify`ed, strings are stored raw, and other
primitives are coerced to their decimal or boolean string — which
coincides with their JSON serialization. -/
def cacheDataOf (data : JsValue) : String :=
  match data with
  | vStr s => s
  | d => jsonStringify d

/-- The no-`ttl` branch of `writeToRedis` (the spec's
`setPreservingExistingTtl`): read the remaining TTL first; if positive,
rewrite with exactly that TTL; otherwise warn and write with no
expiry. -/
def writePreservingTtl (w : World) (flt : Faults) (key cacheData : String) :
    World × Except JsValue Unit :=
  match redisTtlQ w flt key with
  | (w2, Except.error e) => (w2, Except.error e)
  | (w2, Except.ok itemTtl) =>
    if itemTtl > 0 then redisSet w2 flt key cacheData (some itemTtl.toNat)
    else
      let w3 := logMsg w2 ("WARNING: saved item to cache with no TTL - key " ++ key)
      redisSet w3 flt key cacheData none

/-- `writeToRedis`: no-op success when the store is not live; with a
truthy `ttl`, set with that expiry and then arm the prefetch timer; with
no `ttl`, preserve the existing TTL. -/
def writeToRedis (w : World) (flt : Faults) (key : String) (data : JsValue)
    (ttl : Option Nat) : World × Except JsValue Unit :=
  let cacheData := cacheDataOf data
  if !(isRedisActive w) then (w, Except.ok ())
  else
    match ttl with
    | some t =>
      if t ≠ 0 then
        match redisSet w flt key cacheData (some t) with
        | (w2, Except.error e) => (w2, Except.error e)
        | (w2, Except.ok _) => (setPrefetchTimeout w2 key t, Except.ok ())
      else writePreservingTtl w flt key cacheData
    | none => writePreservingTtl w flt key cacheData

/-- `deleteFromRedis`: always cancel the key's prefetch timer, then
delete from the store only when it is live. -/
def deleteFromRedis (w : World) (flt : Faults) (key : String) :
    World × Except JsValue Unit :=
  let w2 := clearPrefetchTimeout w key
  if !(isRedisActive w2) then (w2, Except.ok ())
  else redisDel w2 flt key

/-- `shouldRefresh`: the staleness marker is set on the cached data. -/
def shouldRefresh (data : JsValue) : Bool :=
  match getProp data REQUEST_RESET_KEY with
  | some v => truthy v
  | none => false

/-- `markDataStale`: read the entry, and if truthy set its staleness
marker and rewrite it preserving the existing TTL.  Read failures are
unhandled rejections that affect nothing; the write is
fire-and-forget. -/
def markDataStale (w : World) (flt : Faults) (key : String) : World :=
  match readFromRedis w flt key with
  | (w2, Except.error _) => w2
  | (w2, Except.ok data) =>
    if truthy data then
      (writeToRedis w2 flt key (setProp data REQUEST_RESET_KEY (vBool true)) none).1
    else w2

/-- A due pending timer fires: the one-shot timer leaves the pending set
and its callback `markDataStale` runs.  A timer that is not pending
(already fired or cancelled) never fires. -/
def fireTimer (w : World) (flt : Faults) (t : TimerRec) : World :=
  if t ∈ w.pending then markDataStale { w with pending := w.pending.erase t } flt t.key
  else w

/-- One invocation of the wrapped operation: the oracle `fRes` gives the
outcome of the `n`-th invocation. -/
def callF (w : World) (fRes : Nat → Except JsValue JsValue) :
    World × Except JsValue JsValue :=
  ({ w with fCount := w.fCount + 1 }, fRes w.fCount)

/-- One invocation of `memoizedMethod`, the wrapper returned by
`memoize`.  Asynchronous fire-and-forget effects (the post-miss write,
the defensive delete, the background refresh) are folded into the final
world; their outcomes never reach the caller. -/
def memoizedMethod (w : World) (flt : Faults) (fname : String) (ttl : Nat)
    (fRes : Nat → Except JsValue JsValue) (args : List JsValue) :
    World × Except JsValue JsValue :=
  let key := generateRedisKey fname args
  if !(isRedisActive w) then
    let w2 := logMsg w ("Bypassing cache for: " ++ fname)
    callF w2 fRes
  else
    match readFromRedis w flt key with
    | (w2, Except.error _) =>
      let w3 := logMsg (logMsg w2 "Redis failure!") "error"
      callF w3 fRes
    | (w2, Except.ok redisResponse) =>
      if !(truthy redisResponse) then
        match callF w2 fRes with
        | (w3, Except.ok data) =>
          ((writeToRedis w3 flt key data (some ttl)).1, Except.ok data)
        | (w3, Except.error _) =>
          let w4 := (deleteFromRedis w3 flt key).1
          let w5 := logMsg (logMsg w4 "Redis failure!") "error"
          callF w5 fRes
      else
        if shouldRefresh redisResponse then
          match callF w2 fRes with
          | (w3, Except.ok data) =>
            ((writeToRedis w3 flt key data (some ttl)).1, Except.ok redisResponse)
          | (w3, Except.error _) => (w3, Except.ok redisResponse)
        else (w2, Except.ok redisResponse)

/-- `memoizedMethod.clearCache`: build the glob from the operation name
and optional locator, scan, and fire-and-forget delete each match.  No
liveness check guards the scan, and a scan rejection propagates to the
caller. -/
def clearMemoizedFunctionCache (w : World) (flt : Faults) (fname : String)
    (locator : Option String) : World × Except JsValue Unit :=
  let glob := fname ++ ":*" ++ (match locator with
    | some l => if l ≠ "" then l ++ "*" else ""
    | none => "")
  match redisKeysQ w flt glob with
  | (w2, Except.error e) => (w2, Except.error e)
  | (w2, Except.ok keys) =>
    (keys.foldl (fun acc k => (deleteFromRedis acc flt k).1) w2, Except.ok ())

/-! Timer-table invariant: every pending prefetch timer is registered in
`prefetchTimeouts` under its key, ids are fresh and distinct, and
registered handles are distinct.  All of this holds of the real runtime,
where `setTimeout` returns a fresh unique handle. -/

/-- Invariant tying the pending timer set to the `prefetchTimeouts`
table. -/
def TInv (w : World) : Prop :=
  (∀ t ∈ w.pending, alGet w.timeoutIds t.key = some t.id) ∧
  (∀ t ∈ w.pending, t.id < w.nextId) ∧
  (w.pending.map TimerRec.id).Nodup ∧
  (∀ p ∈ w.timeoutIds, p.2 < w.nextId) ∧
  (w.timeoutIds.map Prod.snd).Nodup

/-- Number of pending timers for a cache key. -/
def pendingFor (w : World) (k : String) : Nat :=
  (w.pending.filter (fun t => t.key == k)).length

theorem TInv_congr (w w' : World) (hp : w'.pending = w.pending)
    (ht : w'.timeoutIds = w.timeoutIds) (hn : w'.nextId = w.nextId) (h : TInv w) :
    TInv w' := by
  rw [TInv, hp, ht, hn]
  exact h

theorem alRemove_sublist {α : Type} : ∀ (l : List (String × α)) (k : String),
    List.Sublist (alRemove l k) l := by
  intro l
  induction l with
  | nil => intro k; simp [alRemove]
  | cons q qs ih =>
    intro k
    obtain ⟨k', w⟩ := q
    by_cases h : k' = k
    · simp only [alRemove, if_pos h]
      exact List.sublist_cons_self _ _
    · simp only [alRemove, if_neg h]
      exact List.Sublist.cons₂ _ (ih k)

theorem alGet_alRemove_other {α : Type} : ∀ (l : List (String × α)) (k k' : String),
    k' ≠ k → alGet (alRemove l k) k' = alGet l k' := by
  intro l
  induction l with
  | nil => intro k k' _; rfl
  | cons q qs ih =>
    intro k k' hne
    obtain ⟨k'', w⟩ := q
    by_cases h : k'' = k
    · subst h
      have hrw : alRemove ((k'', w) :: qs) k'' = qs := by
        simp [alRemove]
      rw [hrw]
      show alGet qs k' = alGet ((k'', w) :: qs) k'
      simp only [alGet]
      rw [if_neg (fun hh => hne hh.symm)]
    · simp only [alRemove, if_neg h, alGet]
      by_cases h2 : k'' = k'
      · rw [if_pos h2, if_pos h2]
      · rw [if_neg h2, if_neg h2]
        exact ih k k' hne

theorem alSet_mem {α : Type} : ∀ (l : List (String × α)) (k : String) (v : α)
    (p : String × α), p ∈ alSet l k v → p ∈ l ∨ p = (k, v) := by
  intro l
  induction l with
  | nil =>
    intro k v p hp
    simp [alSet] at hp
    exact Or.inr hp
  | cons q qs ih =>
    intro k v p hp
    obtain ⟨k', w⟩ := q
    by_cases h : k' = k
    · subst h
      simp only [alSet, if_pos rfl] at hp
      rcases List.mem_cons.mp hp with hp | hp
      · exact Or.inr (by rw [hp])
      · exact Or.inl (List.mem_cons_of_mem _ hp)
    · simp only [alSet, if_neg h] at hp
      rcases List.mem_cons.mp hp with hp | hp
      · exact Or.inl (by rw [hp]; exact List.mem_cons_self _ _)
      · rcases ih k v p hp with hh | hh
        · exact Or.inl (List.mem_cons_of_mem _ hh)
        · exact Or.inr hh

theorem alSet_snd_nodup : ∀ (l : List (String × Nat)) (k : String) (n : Nat),
    (∀ p ∈ l, p.2 < n) → (l.map Prod.snd).Nodup →
      ((alSet l k n).map Prod.snd).Nodup := by
  intro l
  induction l with
  | nil => intro k n _ _; simp [alSet]
  | cons q qs ih =>
    intro k n hlt hnd
    obtain ⟨k', w⟩ := q
    simp only [List.map_cons, List.nodup_cons] at hnd
    by_cases h : k' = k
    · subst h
      have hrw : alSet ((k', w) :: qs) k' n = (k', n) :: qs := by
        simp [alSet]
      rw [hrw]
      simp only [List.map_cons, List.nodup_cons]
      refine ⟨?_, hnd.2⟩
      intro hmem
      obtain ⟨p, hp, he⟩ := List.mem_map.mp hmem
      have := hlt p (List.mem_cons_of_mem _ hp)
      omega
    · have hrw : alSet ((k', w) :: qs) k n = (k', w) :: alSet qs k n := by
        simp [alSet, h]
      rw [hrw]
      simp only [List.map_cons, List.nodup_cons]
      refine ⟨?_, ih k n (fun p hp => hlt p (List.mem_cons_of_mem _ hp)) hnd.2⟩
      intro hmem
      obtain ⟨p, hp, he⟩ := List.mem_map.mp hmem
      rcases alSet_mem qs k n p hp with hh | hh
      · exact hnd.1 (List.mem_map.mpr ⟨p, hh, he⟩)
      · have hw := hlt (k', w) (List.mem_cons_self _ _)
        rw [hh] at he
        simp only at he hw
        omega

theorem clearPrefetchTimeout_shape (w : World) (key : String) :
    (alGet w.timeoutIds key = none ∧ clearPrefetchTimeout w key
        = { w with timeoutIds := alRemove w.timeoutIds key })
    ∨ (∃ i, alGet w.timeoutIds key = some i ∧ clearPrefetchTimeout w key
        = { w with pending := w.pending.filter (fun t => t.id != i),
                   timeoutIds := alRemove w.timeoutIds key }) := by
  unfold clearPrefetchTimeout
  cases hm : alGet w.timeoutIds key with
  | none => exact Or.inl ⟨rfl, rfl⟩
  | some i => exact Or.inr ⟨i, rfl, rfl⟩

theorem clearPrefetchTimeout_sub (w : World) (key : String) :
    List.Sublist (clearPrefetchTimeout w key).pending w.pending := by
  rcases clearPrefetchTimeout_shape w key with ⟨_, he⟩ | ⟨i, _, he⟩
  · rw [he]
  · rw [he]
    exact List.filter_sublist _

theorem clearPrefetchTimeout_tid (w : World) (key : String) :
    (clearPrefetchTimeout w key).timeoutIds = alRemove w.timeoutIds key := by
  rcases clearPrefetchTimeout_shape w key with ⟨_, he⟩ | ⟨i, _, he⟩ <;> rw [he]

theorem clearPrefetchTimeout_nid (w : World) (key : String) :
    (clearPrefetchTimeout w key).nextId = w.nextId := by
  rcases clearPrefetchTimeout_shape w key with ⟨_, he⟩ | ⟨i, _, he⟩ <;> rw [he]

theorem clearPrefetchTimeout_nokey (w : World) (key : String) (hInv : TInv w) :
    ∀ t ∈ (clearPrefetchTimeout w key).pending, t.key ≠ key := by
  obtain ⟨h1, h2, h3, h4, h5⟩ := hInv
  intro t ht hkey
  rcases clearPrefetchTimeout_shape w key with ⟨hm, he⟩ | ⟨i, hm, he⟩
  · rw [he] at ht
    have hh := h1 t ht
    rw [hkey, hm] at hh
    exact Option.noConfusion hh
  · rw [he] at ht
    have hmem := List.mem_filter.mp ht
    have hh := h1 t hmem.1
    rw [hkey, hm] at hh
    injection hh with hid
    have hf := hmem.2
    rw [← hid] at hf
    simp at hf

theorem clearPrefetchTimeout_inv (w : World) (key : String) (hInv : TInv w) :
    TInv (clearPrefetchTimeout w key) := by
  have hnk := clearPrefetchTimeout_nokey w key hInv
  have hsub := clearPrefetchTimeout_sub w key
  have htid := clearPrefetchTimeout_tid w key
  have hnid := clearPrefetchTimeout_nid w key
  obtain ⟨h1, h2, h3, h4, h5⟩ := hInv
  refine ⟨?_, ?_, ?_, ?_, ?_⟩
  · intro t ht
    rw [htid, alGet_alRemove_other _ _ _ (hnk t ht)]
    exact h1 t (List.Sublist.mem ht hsub)
  · intro t ht
    rw [hnid]
    exact h2 t (List.Sublist.mem ht hsub)
  · exact List.Nodup.sublist (List.Sublist.map _ hsub) h3
  · intro p hp
    rw [htid] at hp
    rw [hnid]
    exact h4 p (List.Sublist.mem hp (alRemove_sublist _ _))
  · rw [htid]
    exact List.Nodup.sublist (List.Sublist.map _ (alRemove_sublist _ _)) h5

theorem TInv_nokey_of_none (w : World) (key : String) (hInv : TInv w)
    (hm : alGet w.timeoutIds key = none) : ∀ t ∈ w.pending, t.key ≠ key := by
  intro t ht hkey
  have := hInv.1 t ht
  rw [hkey, hm] at this
  exact Option.noConfusion this

/-- The pre-state of the arm step of `setPrefetchTimeout`: after the
conditional cancel, the invariant holds and no pending timer for the key
remains. -/
theorem setPrefetchTimeout_pre (w : World) (key : String) (hInv : TInv w) :
    TInv (if (alGet w.timeoutIds key).isSome then clearPrefetchTimeout w key else w)
    ∧ (∀ t ∈ (if (alGet w.timeoutIds key).isSome then clearPrefetchTimeout w key
        else w).pending, t.key ≠ key) := by
  cases hm : alGet w.timeoutIds key with
  | none =>
    simp only [hm, Option.isSome_none, Bool.false_eq_true, if_false]
    exact ⟨hInv, TInv_nokey_of_none w key hInv hm⟩
  | some i =>
    simp only [hm, Option.isSome_some, if_true]
    exact ⟨clearPrefetchTimeout_inv w key hInv, clearPrefetchTimeout_nokey w key hInv⟩

/-- The arm step: appending a fresh timer for a key with no remaining
pending timer preserves the invariant. -/
theorem arm_inv (w2 : World) (key : String) (d : ℚ) (hI : TInv w2)
    (hnk : ∀ t ∈ w2.pending, t.key ≠ key) :
    TInv { w2 with pending := w2.pending ++ [⟨w2.nextId, key, d⟩],
                   timeoutIds := alSet w2.timeoutIds key w2.nextId,
                   nextId := w2.nextId + 1 } := by
  obtain ⟨h1, h2, h3, h4, h5⟩ := hI
  refine ⟨?_, ?_, ?_, ?_, ?_⟩
  · intro t ht
    show alGet (alSet w2.timeoutIds key w2.nextId) t.key = some t.id
    rcases List.mem_append.mp ht with ht | ht
    · rw [alGet_alSet_other _ _ _ _ (hnk t ht)]
      exact h1 t ht
    · simp only [List.mem_singleton] at ht
      rw [ht]
      exact alGet_alSet_self _ _ _
  · intro t ht
    show t.id < w2.nextId + 1
    rcases List.mem_append.mp ht with ht | ht
    · have := h2 t ht
      omega
    · simp only [List.mem_singleton] at ht
      rw [ht]
      show w2.nextId < w2.nextId + 1
      omega
  · show ((w2.pending ++ [TimerRec.mk w2.nextId key d]).map TimerRec.id).Nodup
    rw [List.map_append, List.nodup_append]
    refine ⟨h3, by simp, ?_⟩
    intro x hx hy
    simp only [List.map_cons, List.map_nil, List.mem_singleton] at hy
    obtain ⟨t, ht, he⟩ := List.mem_map.mp hx
    have := h2 t ht
    rw [hy] at he
    omega
  · intro p hp
    show p.2 < w2.nextId + 1
    rcases alSet_mem _ _ _ _ hp with hp | hp
    · have := h4 p hp
      omega
    · rw [hp]
      simp
  · show ((alSet w2.timeoutIds key w2.nextId).map Prod.snd).Nodup
    exact alSet_snd_nodup _ _ _ h4 h5

theorem setPrefetchTimeout_inv (w : World) (key : String) (ttl : Nat) (hInv : TInv w) :
    TInv (setPrefetchTimeout w key ttl) := by
  obtain ⟨hI2, hnk2⟩ := setPrefetchTimeout_pre w key hInv
  exact arm_inv _ key _ hI2 hnk2

theorem setPrefetchTimeout_cancels (w : World) (key : String) (ttl : Nat) (hInv : TInv w) :
    ∀ t ∈ w.pending, t.key = key → t ∉ (setPrefetchTimeout w key ttl).pending := by
  obtain ⟨hI2, hnk2⟩ := setPrefetchTimeout_pre w key hInv
  intro t ht hkey hmem
  unfold setPrefetchTimeout at hmem
  rcases List.mem_append.mp hmem with hm | hm
  · exact hnk2 t hm hkey
  · simp only [List.mem_singleton] at hm
    have hlt : t.id < w.nextId := hInv.2.1 t ht
    have hn2 : (if (alGet w.timeoutIds key).isSome then clearPrefetchTimeout w key
        else w).nextId = w.nextId := by
      cases hmk : (alGet w.timeoutIds key).isSome <;>
        simp [hmk, clearPrefetchTimeout_nid]
    rw [hm] at hlt
    simp only [hn2] at hlt
    omega

theorem setPrefetchTimeout_arms (w : World) (key : String) (ttl : Nat) (hInv : TInv w) :
    (setPrefetchTimeout w key ttl).pending.filter (fun t => t.key == key)
      = [⟨(if (alGet w.timeoutIds key).isSome then clearPrefetchTimeout w key
          else w).nextId, key, (ttl : ℚ) * w.ratioQ * 1000⟩] := by
  obtain ⟨hI2, hnk2⟩ := setPrefetchTimeout_pre w key hInv
  unfold setPrefetchTimeout
  rw [List.filter_append]
  have hleft : (if (alGet w.timeoutIds key).isSome then clearPrefetchTimeout w key
      else w).pending.filter (fun t => t.key == key) = [] := by
    rw [List.filter_eq_nil_iff]
    intro t ht
    simp only [beq_iff_eq]
    exact hnk2 t ht
  rw [hleft]
  simp

theorem pendingFor_le_one (w : World) (k : String) (hInv : TInv w) :
    pendingFor w k ≤ 1 := by
  obtain ⟨h1, _, h3, _, _⟩ := hInv
  by_contra hgt
  push_neg at hgt
  unfold pendingFor at hgt
  obtain ⟨a, b, rest, hl⟩ : ∃ a b rest,
      w.pending.filter (fun t => t.key == k) = a :: b :: rest := by
    cases hx : w.pending.filter (fun t => t.key == k) with
    | nil =>
      rw [hx] at hgt
      simp at hgt
    | cons a tail =>
      cases tail with
      | nil =>
        rw [hx] at hgt
        simp at hgt
      | cons b rest => exact ⟨a, b, rest, rfl⟩
  have hae : a ∈ w.pending.filter (fun t => t.key == k) := by rw [hl]; simp
  have hbe : b ∈ w.pending.filter (fun t => t.key == k) := by
    rw [hl]
    simp
  have ha := List.mem_filter.mp hae
  have hb := List.mem_filter.mp hbe
  have hak : a.key = k := by simpa using ha.2
  have hbk : b.key = k := by simpa using hb.2
  have haid := h1 a ha.1
  have hbid := h1 b hb.1
  rw [hak] at haid
  rw [hbk] at hbid
  rw [haid] at hbid
  injection hbid with hid
  have hnd : ((w.pending.filter (fun t => t.key == k)).map TimerRec.id).Nodup :=
    List.Nodup.sublist (List.Sublist.map _ (List.filter_sublist _)) h3
  rw [hl] at hnd
  simp only [List.map_cons, List.nodup_cons, List.mem_cons, List.mem_map] at hnd
  exact hnd.1 (Or.inl hid)

/-! Characterization lemmas for the modelled operations, used by the
claim proofs. -/

theorem redisGet_ok (w : World) (flt : Faults) (key : String) (h : flt.getF = none) :
    redisGet w flt key = ({ w with ops := w.ops ++ [StoreOp.get key] },
      Except.ok ((alGet w.store key).map RedisEntry.raw)) := by
  unfold redisGet
  rw [h]

theorem redisSet_ok (w : World) (flt : Faults) (key val : String) (expiry : Option Nat)
    (h : flt.setF = none) :
    redisSet w flt key val expiry
      = ({ w with ops := w.ops ++ [StoreOp.set key val expiry], store := alSet w.store key ⟨val, expiry⟩ }, Except.ok ()) := by
  unfold redisSet
  rw [h]

/-- The value the `redis.ttl` command reports for a key. -/
def remainingTtl (w : World) (key : String) : Int :=
  match alGet w.store key with
  | none => -2
  | some entry =>
    match entry.expiry with
    | none => -1
    | some t => (t : Int)

theorem redisTtlQ_ok (w : World) (flt : Faults) (key : String) (h : flt.ttlF = none) :
    redisTtlQ w flt key = ({ w with ops := w.ops ++ [StoreOp.ttlq key] },
      Except.ok (remainingTtl w key)) := by
  unfold redisTtlQ remainingTtl
  rw [h]

theorem redisDel_ok (w : World) (flt : Faults) (key : String) (h : flt.delF = none) :
    redisDel w flt key = ({ w with ops := w.ops ++ [StoreOp.del key], store := alRemove w.store key }, Except.ok ()) := by
  unfold redisDel
  rw [h]

theorem redisKeysQ_ok (w : World) (flt : Faults) (pattern : String) (h : flt.keysF = none) :
    redisKeysQ w flt pattern = ({ w with ops := w.ops ++ [StoreOp.keysq pattern] },
      Except.ok ((w.store.map Prod.fst).filter (fun k => globMatch pattern k))) := by
  unfold redisKeysQ
  rw [h]

theorem readFromRedis_miss (w : World) (flt : Faults) (key : String)
    (hget : flt.getF = none) (hmiss : alGet w.store key = none) :
    readFromRedis w flt key
      = ({ w with ops := w.ops ++ [StoreOp.get key] }, Except.ok vNull) := by
  unfold readFromRedis
  rw [redisGet_ok w flt key hget, hmiss]
  rfl

theorem readFromRedis_hit (w : World) (flt : Faults) (key : String) (entry : RedisEntry)
    (v : JsValue) (hget : flt.getF = none) (hhit : alGet w.store key = some entry)
    (hp : jsonParse entry.raw = some v) :
    readFromRedis w flt key
      = ({ w with ops := w.ops ++ [StoreOp.get key] }, Except.ok v) := by
  unfold readFromRedis
  rw [redisGet_ok w flt key hget, hhit]
  show (match jsonParse entry.raw with
    | some v => _
    | none => _) = _
  rw [hp]

theorem readFromRedis_hitRaw (w : World) (flt : Faults) (key : String) (entry : RedisEntry)
    (hget : flt.getF = none) (hhit : alGet w.store key = some entry)
    (hp : jsonParse entry.raw = none) :
    readFromRedis w flt key
      = (logMsg (logMsg { w with ops := w.ops ++ [StoreOp.get key] }
          "Error parsing redis data") "SyntaxError", Except.ok (vStr entry.raw)) := by
  unfold readFromRedis
  rw [redisGet_ok w flt key hget, hhit]
  show (match jsonParse entry.raw with
    | some v => _
    | none => _) = _
  rw [hp]

theorem readFromRedis_fault (w : World) (flt : Faults) (key : String) (e : JsValue)
    (hget : flt.getF = some e) :
    readFromRedis w flt key
      = ({ w with ops := w.ops ++ [StoreOp.get key] }, Except.error e) := by
  unfold readFromRedis redisGet
  rw [hget]

theorem logMsg_on (w : World) (msg : String) (h : w.logsDisabled = false) :
    logMsg w msg = { w with logs := w.logs ++ [msg] } := by
  unfold logMsg
  rw [h]
  rfl

theorem writePreservingTtl_pos (w : World) (flt : Faults) (key cd : String)
    (httlF : flt.ttlF = none) (hsetF : flt.setF = none) (hpos : 0 < remainingTtl w key) :
    writePreservingTtl w flt key cd
      = ({ w with ops := w.ops ++ [StoreOp.ttlq key, StoreOp.set key cd (some (remainingTtl w key).toNat)], store := alSet w.store key ⟨cd, some (remainingTtl w key).toNat⟩ }, Except.ok ()) := by
  unfold writePreservingTtl
  rw [redisTtlQ_ok w flt key httlF]
  show (if remainingTtl w key > 0
    then redisSet { w with ops := w.ops ++ [StoreOp.ttlq key] } flt key cd
      (some (remainingTtl w key).toNat)
    else _) = _
  rw [if_pos hpos, redisSet_ok _ flt key cd _ hsetF]
  simp [List.append_assoc]

theorem writePreservingTtl_nonpos (w : World) (flt : Faults) (key cd : String)
    (httlF : flt.ttlF = none) (hsetF : flt.setF = none) (hlog : w.logsDisabled = false)
    (hnp : remainingTtl w key ≤ 0) :
    writePreservingTtl w flt key cd
      = ({ w with ops := w.ops ++ [StoreOp.ttlq key, StoreOp.set key cd none], store := alSet w.store key ⟨cd, none⟩, logs := w.logs ++ ["WARNING: saved item to cache with no TTL - key " ++ key] }, Except.ok ()) := by
  unfold writePreservingTtl
  rw [redisTtlQ_ok w flt key httlF]
  show (if remainingTtl w key > 0
    then redisSet { w with ops := w.ops ++ [StoreOp.ttlq key] } flt key cd
      (some (remainingTtl w key).toNat)
    else redisSet (logMsg { w with ops := w.ops ++ [StoreOp.ttlq key] }
        ("WARNING: saved item to cache with no TTL - key " ++ key)) flt key cd none) = _
  rw [if_neg (by omega)]
  rw [logMsg_on { w with ops := w.ops ++ [StoreOp.ttlq key] } ("WARNING: saved item to cache with no TTL - key " ++ key) hlog]
  rw [redisSet_ok _ flt key cd _ hsetF]
  simp [List.append_assoc]

theorem writeToRedis_live_none (w : World) (flt : Faults) (key : String) (data : JsValue)
    (hlive : isRedisActive w = true) :
    writeToRedis w flt key data none = writePreservingTtl w flt key (cacheDataOf data) := by
  unfold writeToRedis
  rw [hlive]
  rfl

/-- C6: with a live connection and no injected faults, the no-`ttl` write
(the spec's `setPreservingExistingTtl`) first issues a TTL query for the
key; when the remaining TTL is positive it rewrites the value with exactly
that remaining TTL (and emits no log), and when it is zero or negative it
writes with no expiry and appends the warning-level log. -/
theorem C6_preserve_ttl (w : World) (flt : Faults) (key : String) (data : JsValue)
    (hlive : w.status = "ready") (httlF : flt.ttlF = none) (hsetF : flt.setF = none)
    (hlog : w.logsDisabled = false) :
    (0 < remainingTtl w key →
      writeToRedis w flt key data none
        = ({ w with ops := w.ops ++ [StoreOp.ttlq key, StoreOp.set key (cacheDataOf data) (some (remainingTtl w key).toNat)], store := alSet w.store key ⟨cacheDataOf data, some (remainingTtl w key).toNat⟩ }, Except.ok ()))
    ∧ (remainingTtl w key ≤ 0 →
      writeToRedis w flt key data none
        = ({ w with ops := w.ops ++ [StoreOp.ttlq key, StoreOp.set key (cacheDataOf data) none], store := alSet w.store key ⟨cacheDataOf data, none⟩, logs := w.logs ++ ["WARNING: saved item to cache with no TTL - key " ++ key] }, Except.ok ())) := by
  have hact : isRedisActive w = true := by simp [isRedisActive, hlive]
  constructor
  · intro hpos
    rw [writeToRedis_live_none w flt key data hact,
      writePreservingTtl_pos w flt key (cacheDataOf data) httlF hsetF hpos]
  · intro hnp
    rw [writeToRedis_live_none w flt key data hact,
      writePreservingTtl_nonpos w flt key (cacheDataOf data) httlF hsetF hlog hnp]

theorem C6_preserve_ttl_witness :
    (0:Int) < remainingTtl ⟨"ready", [("k", ⟨"old", some 42⟩)], [], [], 0, 0, false, 0, [], []⟩ "k"
    ∧ (writeToRedis ⟨"ready", [("k", ⟨"old", some 42⟩)], [], [], 0, 0, false, 0, [], []⟩ noFaults "k" (vStr "fresh") none).1.store = [("k", ⟨"fresh", some 42⟩)]
    ∧ (writeToRedis ⟨"ready", [("k", ⟨"old", some 42⟩)], [], [], 0, 0, false, 0, [], []⟩ noFaults "k" (vStr "fresh") none).1.logs = [] := by
  have h := C6_preserve_ttl ⟨"ready", [("k", ⟨"old", some 42⟩)], [], [], 0, 0, false, 0, [], []⟩ noFaults "k" (vStr "fresh") rfl rfl rfl rfl
  have hpos : (0:Int) < remainingTtl ⟨"ready", [("k", ⟨"old", some 42⟩)], [], [], 0, 0, false, 0, [], []⟩ "k" := by decide
  refine ⟨hpos, ?_, ?_⟩
  · rw [h.1 hpos]
    decide
  · rw [h.1 hpos]

theorem callF_eq (w : World) (fRes : Nat → Except JsValue JsValue)
    (r : Except JsValue JsValue) (h : fRes w.fCount = r) :
    callF w fRes = ({ w with fCount := w.fCount + 1 }, r) := by
  unfold callF
  rw [h]

theorem writeToRedis_live_some (w : World) (flt : Faults) (key : String) (data : JsValue)
    (t : Nat) (hact : isRedisActive w = true) (ht : t ≠ 0) (hset : flt.setF = none) :
    writeToRedis w flt key data (some t)
      = (setPrefetchTimeout { w with ops := w.ops ++ [StoreOp.set key (cacheDataOf data) (some t)], store := alSet w.store key ⟨cacheDataOf data, some t⟩ } key t, Except.ok ()) := by
  unfold writeToRedis
  rw [hact]
  show (if t ≠ 0 then
    match redisSet w flt key (cacheDataOf data) (some t) with
    | (w2, Except.error e) => (w2, Except.error e)
    | (w2, Except.ok _) => (setPrefetchTimeout w2 key t, Except.ok ())
    else writePreservingTtl w flt key (cacheDataOf data)) = _
  rw [if_pos ht, redisSet_ok w flt key (cacheDataOf data) (some t) hset]

theorem memoizedMethod_miss_ok (w : World) (flt : Faults) (fname : String) (ttl : Nat)
    (fRes : Nat → Except JsValue JsValue) (args : List JsValue) (rv data : JsValue)
    (hlive : isRedisActive w = true)
    (hread : readFromRedis w flt (generateRedisKey fname args)
      = ({ w with ops := w.ops ++ [StoreOp.get (generateRedisKey fname args)] }, Except.ok rv))
    (hfalsy : truthy rv = false)
    (hf : fRes w.fCount = Except.ok data) :
    memoizedMethod w flt fname ttl fRes args
      = ((writeToRedis { w with ops := w.ops ++ [StoreOp.get (generateRedisKey fname args)], fCount := w.fCount + 1 } flt (generateRedisKey fname args) data (some ttl)).1, Except.ok data) := by
  simp only [memoizedMethod, hlive]
  rw [if_neg (by decide)]
  rw [hread]
  simp only [hfalsy, Bool.not_false, if_true]
  rw [callF_eq { w with ops := w.ops ++ [StoreOp.get (generateRedisKey fname args)] } fRes (Except.ok data) hf]

theorem memoizedMethod_hit (w : World) (flt : Faults) (fname : String) (ttl : Nat)
    (fRes : Nat → Except JsValue JsValue) (args : List JsValue) (rv : JsValue)
    (hlive : isRedisActive w = true)
    (hread : readFromRedis w flt (generateRedisKey fname args)
      = ({ w with ops := w.ops ++ [StoreOp.get (generateRedisKey fname args)] }, Except.ok rv))
    (htruthy : truthy rv = true) (hnoref : shouldRefresh rv = false) :
    memoizedMethod w flt fname ttl fRes args
      = ({ w with ops := w.ops ++ [StoreOp.get (generateRedisKey fname args)] }, Except.ok rv) := by
  simp only [memoizedMethod, hlive]
  rw [if_neg (by decide)]
  rw [hread]
  simp only [htruthy, Bool.not_true, Bool.false_eq_true, if_false, hnoref]

theorem memoizedMethod_stale_ok (w : World) (flt : Faults) (fname : String) (ttl : Nat)
    (fRes : Nat → Except JsValue JsValue) (args : List JsValue) (rv data : JsValue)
    (hlive : isRedisActive w = true)
    (hread : readFromRedis w flt (generateRedisKey fname args)
      = ({ w with ops := w.ops ++ [StoreOp.get (generateRedisKey fname args)] }, Except.ok rv))
    (htruthy : truthy rv = true) (href : shouldRefresh rv = true)
    (hf : fRes w.fCount = Except.ok data) :
    memoizedMethod w flt fname ttl fRes args
      = ((writeToRedis { w with ops := w.ops ++ [StoreOp.get (generateRedisKey fname args)], fCount := w.fCount + 1 } flt (generateRedisKey fname args) data (some ttl)).1, Except.ok rv) := by
  simp only [memoizedMethod, hlive]
  rw [if_neg (by decide)]
  rw [hread]
  simp only [htruthy, Bool.not_true, Bool.false_eq_true, if_false, href, if_true]
  rw [callF_eq { w with ops := w.ops ++ [StoreOp.get (generateRedisKey fname args)] } fRes (Except.ok data) hf]

theorem memoizedMethod_stale_err (w : World) (flt : Faults) (fname : String) (ttl : Nat)
    (fRes : Nat → Except JsValue JsValue) (args : List JsValue) (rv e : JsValue)
    (hlive : isRedisActive w = true)
    (hread : readFromRedis w flt (generateRedisKey fname args)
      = ({ w with ops := w.ops ++ [StoreOp.get (generateRedisKey fname args)] }, Except.ok rv))
    (htruthy : truthy rv = true) (href : shouldRefresh rv = true)
    (hf : fRes w.fCount = Except.error e) :
    memoizedMethod w flt fname ttl fRes args
      = ({ w with ops := w.ops ++ [StoreOp.get (generateRedisKey fname args)], fCount := w.fCount + 1 }, Except.ok rv) := by
  simp only [memoizedMethod, hlive]
  rw [if_neg (by decide)]
  rw [hread]
  simp only [htruthy, Bool.not_true, Bool.false_eq_true, if_false, href, if_true]
  rw [callF_eq { w with ops := w.ops ++ [StoreOp.get (generateRedisKey fname args)] } fRes (Except.error e) hf]

theorem memoizedMethod_notlive (w : World) (flt : Faults) (fname : String) (ttl : Nat)
    (fRes : Nat → Except JsValue JsValue) (args : List JsValue)
    (h : isRedisActive w = false) :
    memoizedMethod w flt fname ttl fRes args
      = ({ logMsg w ("Bypassing cache for: " ++ fname) with fCount := w.fCount + 1 }, fRes w.fCount) := by
  simp only [memoizedMethod, h]
  rw [if_pos (by decide)]
  unfold callF logMsg
  cases hd : w.logsDisabled <;> simp

theorem clearPrefetchTimeout_same (w : World) (key : String) :
    (clearPrefetchTimeout w key).store = w.store
    ∧ (clearPrefetchTimeout w key).status = w.status
    ∧ (clearPrefetchTimeout w key).fCount = w.fCount
    ∧ (clearPrefetchTimeout w key).ops = w.ops
    ∧ (clearPrefetchTimeout w key).logs = w.logs := by
  rcases clearPrefetchTimeout_shape w key with ⟨_, he⟩ | ⟨i, _, he⟩ <;> rw [he] <;>
    exact ⟨rfl, rfl, rfl, rfl, rfl⟩

theorem setPrefetchTimeout_same (w : World) (key : String) (ttl : Nat) :
    (setPrefetchTimeout w key ttl).store = w.store
    ∧ (setPrefetchTimeout w key ttl).fCount = w.fCount
    ∧ (setPrefetchTimeout w key ttl).status = w.status
    ∧ (setPrefetchTimeout w key ttl).ops = w.ops
    ∧ (setPrefetchTimeout w key ttl).logs = w.logs := by
  unfold setPrefetchTimeout
  rcases clearPrefetchTimeout_shape w key with ⟨hm, he⟩ | ⟨i, hm, he⟩ <;>
    simp [hm, he]

/-- C10: when the stored value at the derived key deserializes to a falsy
value, the call is handled as a cache miss: the wrapped operation is
invoked again (`fCount` increments), its fresh result is returned to the
caller instead of the cached falsy value, and the store entry under the
key is rewritten with the serialized fresh result and the configured
TTL. -/
theorem C10_falsy_is_miss (w : World) (flt : Faults) (fname : String) (ttl : Nat)
    (fRes : Nat → Except JsValue JsValue) (args : List JsValue) (entry : RedisEntry)
    (rv data : JsValue)
    (hlive : w.status = "ready") (hget : flt.getF = none) (hset : flt.setF = none)
    (httl : ttl ≠ 0)
    (hhit : alGet w.store (generateRedisKey fname args) = some entry)
    (hp : jsonParse entry.raw = some rv)
    (hfalsy : truthy rv = false)
    (hf : fRes w.fCount = Except.ok data) :
    (memoizedMethod w flt fname ttl fRes args).2 = Except.ok data
    ∧ (memoizedMethod w flt fname ttl fRes args).1.fCount = w.fCount + 1
    ∧ alGet (memoizedMethod w flt fname ttl fRes args).1.store (generateRedisKey fname args)
        = some ⟨cacheDataOf data, some ttl⟩ := by
  have hact : isRedisActive w = true := by simp [isRedisActive, hlive]
  have hread := readFromRedis_hit w flt (generateRedisKey fname args) entry rv hget hhit hp
  have hmm := memoizedMethod_miss_ok w flt fname ttl fRes args rv data hact hread hfalsy hf
  rw [hmm]
  have hw := writeToRedis_live_some { w with ops := w.ops ++ [StoreOp.get (generateRedisKey fname args)], fCount := w.fCount + 1 } flt (generateRedisKey fname args) data ttl (by simp [isRedisActive, hlive]) httl hset
  have hfin : (writeToRedis { w with ops := w.ops ++ [StoreOp.get (generateRedisKey fname args)], fCount := w.fCount + 1 } flt (generateRedisKey fname args) data (some ttl)).1
      = setPrefetchTimeout { w with ops := (w.ops ++ [StoreOp.get (generateRedisKey fname args)]) ++ [StoreOp.set (generateRedisKey fname args) (cacheDataOf data) (some ttl)], fCount := w.fCount + 1, store := alSet w.store (generateRedisKey fname args) ⟨cacheDataOf data, some ttl⟩ } (generateRedisKey fname args) ttl := by
    rw [hw]
  rw [hfin]
  refine ⟨rfl, ?_, ?_⟩
  · rw [(setPrefetchTimeout_same { w with ops := (w.ops ++ [StoreOp.get (generateRedisKey fname args)]) ++ [StoreOp.set (generateRedisKey fname args) (cacheDataOf data) (some ttl)], fCount := w.fCount + 1, store := alSet w.store (generateRedisKey fname args) ⟨cacheDataOf data, some ttl⟩ } (generateRedisKey fname args) ttl).2.1]
  · rw [(setPrefetchTimeout_same { w with ops := (w.ops ++ [StoreOp.get (generateRedisKey fname args)]) ++ [StoreOp.set (generateRedisKey fname args) (cacheDataOf data) (some ttl)], fCount := w.fCount + 1, store := alSet w.store (generateRedisKey fname args) ⟨cacheDataOf data, some ttl⟩ } (generateRedisKey fname args) ttl).1]
    exact alGet_alSet_self w.store (generateRedisKey fname args) ⟨cacheDataOf data, some ttl⟩

theorem C10_falsy_is_miss_witness :
    jsonParse "null" = some vNull ∧ truthy vNull = false
    ∧ (memoizedMethod ⟨"ready", [("f:\x7b\x7d", ⟨"null", some 10⟩)], [], [], 0, 0, false, 0, [], []⟩ noFaults "f" 5 (fun _ => Except.ok (vNum 1)) []).2 = Except.ok (vNum 1)
    ∧ (memoizedMethod ⟨"ready", [("f:\x7b\x7d", ⟨"null", some 10⟩)], [], [], 0, 0, false, 0, [], []⟩ noFaults "f" 5 (fun _ => Except.ok (vNum 1)) []).1.fCount = 1
    ∧ alGet (memoizedMethod ⟨"ready", [("f:\x7b\x7d", ⟨"null", some 10⟩)], [], [], 0, 0, false, 0, [], []⟩ noFaults "f" 5 (fun _ => Except.ok (vNum 1)) []).1.store (generateRedisKey "f" [])
        = some ⟨"1", some 5⟩ := by
  have h := C10_falsy_is_miss ⟨"ready", [("f:\x7b\x7d", ⟨"null", some 10⟩)], [], [], 0, 0, false, 0, [], []⟩ noFaults "f" 5 (fun _ => Except.ok (vNum 1)) [] ⟨"null", some 10⟩ vNull (vNum 1) rfl rfl rfl (by decide) (by decide) rfl rfl rfl
  exact ⟨rfl, rfl, h.1, h.2.1, h.2.2⟩

/-- C2: with a live store and no cached entry under the derived key, the
first call invokes the wrapped operation exactly once, returns its result,
and writes the JSON-serialized result to the store under the derived key
with the configured TTL; a second call with the same arguments then
returns the cached deserialized value and does not invoke the wrapped
operation (its outcome oracle is irrelevant and the invocation counter is
unchanged). -/
theorem C2_miss_then_hit (w : World) (flt : Faults) (fname : String) (ttl : Nat)
    (fRes : Nat → Except JsValue JsValue) (args : List JsValue) (fs : List (String × JsValue))
    (hlive : w.status = "ready") (hget : flt.getF = none) (hset : flt.setF = none)
    (httl : ttl ≠ 0)
    (hmiss : alGet w.store (generateRedisKey fname args) = none)
    (hf : fRes w.fCount = Except.ok (vObj fs))
    (hnoref : shouldRefresh (vObj fs) = false) :
    (memoizedMethod w flt fname ttl fRes args).2 = Except.ok (vObj fs)
    ∧ (memoizedMethod w flt fname ttl fRes args).1.fCount = w.fCount + 1
    ∧ alGet (memoizedMethod w flt fname ttl fRes args).1.store (generateRedisKey fname args)
        = some ⟨jsonStringify (vObj fs), some ttl⟩
    ∧ ∀ fRes2 : Nat → Except JsValue JsValue,
        (memoizedMethod (memoizedMethod w flt fname ttl fRes args).1 flt fname ttl fRes2 args).2
          = Except.ok (vObj fs)
        ∧ (memoizedMethod (memoizedMethod w flt fname ttl fRes args).1 flt fname ttl fRes2 args).1.fCount
          = (memoizedMethod w flt fname ttl fRes args).1.fCount := by
  have hact : isRedisActive w = true := by simp [isRedisActive, hlive]
  have hread := readFromRedis_miss w flt (generateRedisKey fname args) hget hmiss
  have hmm := memoizedMethod_miss_ok w flt fname ttl fRes args vNull (vObj fs) hact hread rfl hf
  have hw := writeToRedis_live_some { w with ops := w.ops ++ [StoreOp.get (generateRedisKey fname args)], fCount := w.fCount + 1 } flt (generateRedisKey fname args) (vObj fs) ttl (by simp [isRedisActive, hlive]) httl hset
  have hfin : (writeToRedis { w with ops := w.ops ++ [StoreOp.get (generateRedisKey fname args)], fCount := w.fCount + 1 } flt (generateRedisKey fname args) (vObj fs) (some ttl)).1
      = setPrefetchTimeout { w with ops := (w.ops ++ [StoreOp.get (generateRedisKey fname args)]) ++ [StoreOp.set (generateRedisKey fname args) (cacheDataOf (vObj fs)) (some ttl)], fCount := w.fCount + 1, store := alSet w.store (generateRedisKey fname args) ⟨cacheDataOf (vObj fs), some ttl⟩ } (generateRedisKey fname args) ttl := by
    rw [hw]
  rw [hmm, hfin]
  have hsame := setPrefetchTimeout_same { w with ops := (w.ops ++ [StoreOp.get (generateRedisKey fname args)]) ++ [StoreOp.set (generateRedisKey fname args) (cacheDataOf (vObj fs)) (some ttl)], fCount := w.fCount + 1, store := alSet w.store (generateRedisKey fname args) ⟨cacheDataOf (vObj fs), some ttl⟩ } (generateRedisKey fname args) ttl
  have hstore : (setPrefetchTimeout { w with ops := (w.ops ++ [StoreOp.get (generateRedisKey fname args)]) ++ [StoreOp.set (generateRedisKey fname args) (cacheDataOf (vObj fs)) (some ttl)], fCount := w.fCount + 1, store := alSet w.store (generateRedisKey fname args) ⟨cacheDataOf (vObj fs), some ttl⟩ } (generateRedisKey fname args) ttl).store
      = alSet w.store (generateRedisKey fname args) ⟨cacheDataOf (vObj fs), some ttl⟩ := hsame.1
  have hfc : (setPrefetchTimeout { w with ops := (w.ops ++ [StoreOp.get (generateRedisKey fname args)]) ++ [StoreOp.set (generateRedisKey fname args) (cacheDataOf (vObj fs)) (some ttl)], fCount := w.fCount + 1, store := alSet w.store (generateRedisKey fname args) ⟨cacheDataOf (vObj fs), some ttl⟩ } (generateRedisKey fname args) ttl).fCount
      = w.fCount + 1 := hsame.2.1
  have hst : (setPrefetchTimeout { w with ops := (w.ops ++ [StoreOp.get (generateRedisKey fname args)]) ++ [StoreOp.set (generateRedisKey fname args) (cacheDataOf (vObj fs)) (some ttl)], fCount := w.fCount + 1, store := alSet w.store (generateRedisKey fname args) ⟨cacheDataOf (vObj fs), some ttl⟩ } (generateRedisKey fname args) ttl).status
      = "ready" := by rw [hsame.2.2.1, hlive]
  have hhit1 : alGet (setPrefetchTimeout { w with ops := (w.ops ++ [StoreOp.get (generateRedisKey fname args)]) ++ [StoreOp.set (generateRedisKey fname args) (cacheDataOf (vObj fs)) (some ttl)], fCount := w.fCount + 1, store := alSet w.store (generateRedisKey fname args) ⟨cacheDataOf (vObj fs), some ttl⟩ } (generateRedisKey fname args) ttl).store (generateRedisKey fname args)
      = some ⟨cacheDataOf (vObj fs), some ttl⟩ := by
    rw [hstore]
    exact alGet_alSet_self w.store (generateRedisKey fname args) ⟨cacheDataOf (vObj fs), some ttl⟩
  refine ⟨rfl, hfc, hhit1, ?_⟩
  intro fRes2
  have hact1 : isRedisActive (setPrefetchTimeout { w with ops := (w.ops ++ [StoreOp.get (generateRedisKey fname args)]) ++ [StoreOp.set (generateRedisKey fname args) (cacheDataOf (vObj fs)) (some ttl)], fCount := w.fCount + 1, store := alSet w.store (generateRedisKey fname args) ⟨cacheDataOf (vObj fs), some ttl⟩ } (generateRedisKey fname args) ttl) = true := by
    unfold isRedisActive
    rw [hst]
    rfl
  have hp1 : jsonParse (RedisEntry.raw ⟨cacheDataOf (vObj fs), some ttl⟩) = some (vObj fs) :=
    jsonParse_jsonStringify (vObj fs)
  have hread1 := readFromRedis_hit (setPrefetchTimeout { w with ops := (w.ops ++ [StoreOp.get (generateRedisKey fname args)]) ++ [StoreOp.set (generateRedisKey fname args) (cacheDataOf (vObj fs)) (some ttl)], fCount := w.fCount + 1, store := alSet w.store (generateRedisKey fname args) ⟨cacheDataOf (vObj fs), some ttl⟩ } (generateRedisKey fname args) ttl) flt (generateRedisKey fname args) ⟨cacheDataOf (vObj fs), some ttl⟩ (vObj fs) hget hhit1 hp1
  have hmm2 := memoizedMethod_hit (setPrefetchTimeout { w with ops := (w.ops ++ [StoreOp.get (generateRedisKey fname args)]) ++ [StoreOp.set (generateRedisKey fname args) (cacheDataOf (vObj fs)) (some ttl)], fCount := w.fCount + 1, store := alSet w.store (generateRedisKey fname args) ⟨cacheDataOf (vObj fs), some ttl⟩ } (generateRedisKey fname args) ttl) flt fname ttl fRes2 args (vObj fs) hact1 hread1 rfl hnoref
  rw [hmm2]
  exact ⟨rfl, rfl⟩

theorem C2_miss_then_hit_witness :
    alGet (([] : List (String × RedisEntry))) (generateRedisKey "f" []) = none
    ∧ (memoizedMethod ⟨"ready", [], [], [], 0, 0, false, 0, [], []⟩ noFaults "f" 300 (fun _ => Except.ok (vObj [("v", vNum 1)])) []).2 = Except.ok (vObj [("v", vNum 1)])
    ∧ (memoizedMethod (memoizedMethod ⟨"ready", [], [], [], 0, 0, false, 0, [], []⟩ noFaults "f" 300 (fun _ => Except.ok (vObj [("v", vNum 1)])) []).1 noFaults "f" 300 (fun _ => Except.error (vStr "boom")) []).2 = Except.ok (vObj [("v", vNum 1)])
    ∧ (memoizedMethod (memoizedMethod ⟨"ready", [], [], [], 0, 0, false, 0, [], []⟩ noFaults "f" 300 (fun _ => Except.ok (vObj [("v", vNum 1)])) []).1 noFaults "f" 300 (fun _ => Except.error (vStr "boom")) []).1.fCount = 1 := by
  have h := C2_miss_then_hit ⟨"ready", [], [], [], 0, 0, false, 0, [], []⟩ noFaults "f" 300 (fun _ => Except.ok (vObj [("v", vNum 1)])) [] [("v", vNum 1)] rfl rfl rfl (by decide) rfl rfl rfl
  obtain ⟨h1, h2, h3, h4⟩ := h
  have h5 := h4 (fun _ => Except.error (vStr "boom"))
  exact ⟨rfl, h1, h5.1, by rw [h5.2, h2]⟩

/-- C3: when the stored entry under the derived key deserializes to a
truthy value whose staleness marker is set, the call returns that stale
value immediately, the wrapped operation is invoked exactly once in the
background, and on success the entry is overwritten with the serialized
fresh result (whose marker, for a fresh result not carrying the marker,
is clear after deserialization); a background-refresh failure leaves the
store unchanged and is not propagated: the caller still receives the
stale value. -/
theorem C3_stale_refresh (w : World) (flt : Faults) (fname : String) (ttl : Nat)
    (fRes : Nat → Except JsValue JsValue) (args : List JsValue) (entry : RedisEntry)
    (rv : JsValue)
    (hlive : w.status = "ready") (hget : flt.getF = none) (hset : flt.setF = none)
    (httl : ttl ≠ 0)
    (hhit : alGet w.store (generateRedisKey fname args) = some entry)
    (hp : jsonParse entry.raw = some rv)
    (htruthy : truthy rv = true) (href : shouldRefresh rv = true) :
    (∀ ds, fRes w.fCount = Except.ok (vObj ds) → shouldRefresh (vObj ds) = false →
      (memoizedMethod w flt fname ttl fRes args).2 = Except.ok rv
      ∧ (memoizedMethod w flt fname ttl fRes args).1.fCount = w.fCount + 1
      ∧ ∃ v, alGet (memoizedMethod w flt fname ttl fRes args).1.store (generateRedisKey fname args)
            = some ⟨jsonStringify (vObj ds), some ttl⟩
          ∧ jsonParse (jsonStringify (vObj ds)) = some v ∧ shouldRefresh v = false)
    ∧ (∀ e, fRes w.fCount = Except.error e →
      (memoizedMethod w flt fname ttl fRes args).2 = Except.ok rv
      ∧ (memoizedMethod w flt fname ttl fRes args).1.fCount = w.fCount + 1
      ∧ (memoizedMethod w flt fname ttl fRes args).1.store = w.store) := by
  have hact : isRedisActive w = true := by simp [isRedisActive, hlive]
  have hread := readFromRedis_hit w flt (generateRedisKey fname args) entry rv hget hhit hp
  constructor
  · intro ds hf hfresh
    have hmm := memoizedMethod_stale_ok w flt fname ttl fRes args rv (vObj ds) hact hread htruthy href hf
    have hw := writeToRedis_live_some { w with ops := w.ops ++ [StoreOp.get (generateRedisKey fname args)], fCount := w.fCount + 1 } flt (generateRedisKey fname args) (vObj ds) ttl (by simp [isRedisActive, hlive]) httl hset
    have hfin : (writeToRedis { w with ops := w.ops ++ [StoreOp.get (generateRedisKey fname args)], fCount := w.fCount + 1 } flt (generateRedisKey fname args) (vObj ds) (some ttl)).1
        = setPrefetchTimeout { w with ops := (w.ops ++ [StoreOp.get (generateRedisKey fname args)]) ++ [StoreOp.set (generateRedisKey fname args) (cacheDataOf (vObj ds)) (some ttl)], fCount := w.fCount + 1, store := alSet w.store (generateRedisKey fname args) ⟨cacheDataOf (vObj ds), some ttl⟩ } (generateRedisKey fname args) ttl := by
      rw [hw]
    rw [hmm, hfin]
    have hsame := setPrefetchTimeout_same { w with ops := (w.ops ++ [StoreOp.get (generateRedisKey fname args)]) ++ [StoreOp.set (generateRedisKey fname args) (cacheDataOf (vObj ds)) (some ttl)], fCount := w.fCount + 1, store := alSet w.store (generateRedisKey fname args) ⟨cacheDataOf (vObj ds), some ttl⟩ } (generateRedisKey fname args) ttl
    refine ⟨rfl, hsame.2.1, vObj ds, ?_, jsonParse_jsonStringify (vObj ds), hfresh⟩
    rw [hsame.1]
    exact alGet_alSet_self w.store (generateRedisKey fname args) ⟨cacheDataOf (vObj ds), some ttl⟩
  · intro e hf
    have hmm := memoizedMethod_stale_err w flt fname ttl fRes args rv e hact hread htruthy href hf
    rw [hmm]
    exact ⟨rfl, rfl, rfl⟩

theorem C3_stale_refresh_witness :
    shouldRefresh (vObj [("v", vNum 1), ("__stale__", vBool true)]) = true
    ∧ shouldRefresh (vObj [("v", vNum 2)]) = false
    ∧ (memoizedMethod ⟨"ready", [("f:\x7b\x7d", ⟨"\x7b\"v\":1,\"__stale__\":true\x7d", some 300⟩)], [], [], 0, 0, false, 0, [], []⟩ noFaults "f" 300 (fun _ => Except.ok (vObj [("v", vNum 2)])) []).2
        = Except.ok (vObj [("v", vNum 1), ("__stale__", vBool true)])
    ∧ (memoizedMethod ⟨"ready", [("f:\x7b\x7d", ⟨"\x7b\"v\":1,\"__stale__\":true\x7d", some 300⟩)], [], [], 0, 0, false, 0, [], []⟩ noFaults "f" 300 (fun _ => Except.ok (vObj [("v", vNum 2)])) []).1.fCount = 1
    ∧ alGet (memoizedMethod ⟨"ready", [("f:\x7b\x7d", ⟨"\x7b\"v\":1,\"__stale__\":true\x7d", some 300⟩)], [], [], 0, 0, false, 0, [], []⟩ noFaults "f" 300 (fun _ => Except.ok (vObj [("v", vNum 2)])) []).1.store (generateRedisKey "f" [])
        = some ⟨"\x7b\"v\":2\x7d", some 300⟩ := by
  have h := C3_stale_refresh ⟨"ready", [("f:\x7b\x7d", ⟨"\x7b\"v\":1,\"__stale__\":true\x7d", some 300⟩)], [], [], 0, 0, false, 0, [], []⟩ noFaults "f" 300 (fun _ => Except.ok (vObj [("v", vNum 2)])) [] ⟨"\x7b\"v\":1,\"__stale__\":true\x7d", some 300⟩ (vObj [("v", vNum 1), ("__stale__", vBool true)]) rfl rfl rfl (by decide) (by decide) rfl rfl rfl
  obtain ⟨h2, h3, v, h4, h5, h6⟩ := h.1 [("v", vNum 2)] rfl rfl
  exact ⟨rfl, rfl, h2, by rw [h3], h4⟩

/-- C1: the spec says the wrapper's promise rejects exactly when that
invocation's wrapped operation rejects, with the same error.  The code
diverges: on a cache miss whose wrapped-operation call rejects, the
defensive delete runs but the rejection is re-raised into the wrapper's
outer catch, which invokes the wrapped operation a second time and
returns that second outcome.  Concretely, with an empty live store and an
operation that rejects with "E1" on its first invocation and resolves to
an object on its second, the wrapper resolves successfully (hiding the
rejection), the operation runs twice in one call, and the derived key
holds no entry afterwards. -/
theorem C1_reject_propagation_bug :
    (fun n => if n = 0 then Except.error (vStr "E1")
      else Except.ok (vObj [("v", vNum 2)])) 0 = (Except.error (vStr "E1") : Except JsValue JsValue)
    ∧ (memoizedMethod ⟨"ready", [], [], [], 0, 0, false, 0, [], []⟩ noFaults "f" 300 (fun n => if n = 0 then Except.error (vStr "E1") else Except.ok (vObj [("v", vNum 2)])) []).2
        = Except.ok (vObj [("v", vNum 2)])
    ∧ (memoizedMethod ⟨"ready", [], [], [], 0, 0, false, 0, [], []⟩ noFaults "f" 300 (fun n => if n = 0 then Except.error (vStr "E1") else Except.ok (vObj [("v", vNum 2)])) []).1.fCount = 2
    ∧ alGet (memoizedMethod ⟨"ready", [], [], [], 0, 0, false, 0, [], []⟩ noFaults "f" 300 (fun n => if n = 0 then Except.error (vStr "E1") else Except.ok (vObj [("v", vNum 2)])) []).1.store (generateRedisKey "f" []) = none := by
  exact ⟨rfl, rfl, rfl, rfl⟩

theorem logMsg_ops (w : World) (msg : String) : (logMsg w msg).ops = w.ops := by
  unfold logMsg
  split <;> rfl

/-- C4 counterexample: the claim says every store-adapter operation
short-circuits when the store is not live, so no operation is ever issued
against it.  The read adapter has no liveness gate: `markDataStale` (the
prefetch-timer callback) calls it unconditionally, and on a
not-"ready"-status world the modelled trace records an issued `get`. -/
theorem C4_notlive_read_counterexample :
    isRedisActive ⟨"connecting", [], [], [], 0, 0, false, 0, [], []⟩ = false
    ∧ (markDataStale ⟨"connecting", [], [], [], 0, 0, false, 0, [], []⟩ noFaults "k").ops
        = [StoreOp.get "k"] := ⟨rfl, rfl⟩

/-- C4 amended: when the store is not live, the wrapper bypasses the
cache — it invokes the wrapped operation directly, returns its outcome,
and issues no store operation — and the write and delete adapters
short-circuit to a no-op success; the read adapter, however, still issues
its `get` against the store. -/
theorem C4_notlive_amended (w : World) (flt : Faults) (fname : String) (ttl : Nat)
    (fRes : Nat → Except JsValue JsValue) (args : List JsValue) (key : String)
    (data : JsValue) (t : Option Nat)
    (h : isRedisActive w = false) (hget : flt.getF = none) :
    (memoizedMethod w flt fname ttl fRes args).1.ops = w.ops
    ∧ (memoizedMethod w flt fname ttl fRes args).2 = fRes w.fCount
    ∧ (memoizedMethod w flt fname ttl fRes args).1.fCount = w.fCount + 1
    ∧ writeToRedis w flt key data t = (w, Except.ok ())
    ∧ (deleteFromRedis w flt key).1.ops = w.ops
    ∧ (deleteFromRedis w flt key).2 = Except.ok ()
    ∧ (readFromRedis w flt key).1.ops = w.ops ++ [StoreOp.get key] := by
  have hmm := memoizedMethod_notlive w flt fname ttl fRes args h
  have hd : deleteFromRedis w flt key = (clearPrefetchTimeout w key, Except.ok ()) := by
    have h2 : isRedisActive (clearPrefetchTimeout w key) = false := by
      unfold isRedisActive at h ⊢
      rw [(clearPrefetchTimeout_same w key).2.1]
      exact h
    unfold deleteFromRedis
    show (if (!isRedisActive (clearPrefetchTimeout w key)) = true
      then (clearPrefetchTimeout w key, Except.ok ())
      else redisDel (clearPrefetchTimeout w key) flt key) = _
    rw [h2]
    rfl
  have hwr : writeToRedis w flt key data t = (w, Except.ok ()) := by
    unfold writeToRedis
    rw [h]
    rfl
  refine ⟨?_, ?_, ?_, hwr, ?_, ?_, ?_⟩
  · rw [hmm]
    exact logMsg_ops w ("Bypassing cache for: " ++ fname)
  · rw [hmm]
  · rw [hmm]
  · rw [hd]
    exact (clearPrefetchTimeout_same w key).2.2.2.1
  · rw [hd]
  · rcases hm : alGet w.store key with _ | entry
    · rw [readFromRedis_miss w flt key hget hm]
    · rcases hp : jsonParse entry.raw with _ | v
      · rw [readFromRedis_hitRaw w flt key entry hget hm hp]
        show (logMsg (logMsg { w with ops := w.ops ++ [StoreOp.get key] }
          "Error parsing redis data") "SyntaxError").ops = w.ops ++ [StoreOp.get key]
        rw [logMsg_ops, logMsg_ops]
      · rw [readFromRedis_hit w flt key entry v hget hm hp]

theorem C4_notlive_amended_witness :
    isRedisActive ⟨"connecting", [("k", ⟨"1", some 5⟩)], [], [], 0, 0, false, 0, [], []⟩ = false
    ∧ (memoizedMethod ⟨"connecting", [("k", ⟨"1", some 5⟩)], [], [], 0, 0, false, 0, [], []⟩ noFaults "f" 300 (fun _ => Except.ok (vNum 9)) []).1.ops = []
    ∧ (memoizedMethod ⟨"connecting", [("k", ⟨"1", some 5⟩)], [], [], 0, 0, false, 0, [], []⟩ noFaults "f" 300 (fun _ => Except.ok (vNum 9)) []).2 = Except.ok (vNum 9)
    ∧ writeToRedis ⟨"connecting", [("k", ⟨"1", some 5⟩)], [], [], 0, 0, false, 0, [], []⟩ noFaults "k" (vNum 3) (some 300) = (⟨"connecting", [("k", ⟨"1", some 5⟩)], [], [], 0, 0, false, 0, [], []⟩, Except.ok ())
    ∧ (readFromRedis ⟨"connecting", [("k", ⟨"1", some 5⟩)], [], [], 0, 0, false, 0, [], []⟩ noFaults "k").1.ops = [StoreOp.get "k"] := by
  have h := C4_notlive_amended ⟨"connecting", [("k", ⟨"1", some 5⟩)], [], [], 0, 0, false, 0, [], []⟩ noFaults "f" 300 (fun _ => Except.ok (vNum 9)) [] "k" (vNum 3) (some 300) rfl rfl
  exact ⟨rfl, h.1, h.2.1, h.2.2.2.1, h.2.2.2.2.2.2⟩

/-- C7: the derived cache key is the operation name, a colon, and the
canonical (sorted-key) serialization of the arguments object; two
argument sequences that are deeply equal up to object-key insertion
order (well-formed: no duplicate keys) derive the same key. -/
theorem C7_key_derivation (fname : String) (A B : List JsValue)
    (hwA : wfJsL A = true) (hwB : wfJsL B = true) (h : jsEqbL A B = true) :
    generateRedisKey fname A = fname ++ ":" ++ stableStringify (argsObject A)
    ∧ generateRedisKey fname A = generateRedisKey fname B :=
  ⟨rfl, generateRedisKey_eq fname A B hwA hwB h⟩

theorem C7_key_derivation_witness :
    wfJsL [vObj [("a", vNum 1), ("b", vNum 2)]] = true
    ∧ wfJsL [vObj [("b", vNum 2), ("a", vNum 1)]] = true
    ∧ jsEqbL [vObj [("a", vNum 1), ("b", vNum 2)]] [vObj [("b", vNum 2), ("a", vNum 1)]] = true
    ∧ generateRedisKey "f" [vObj [("a", vNum 1), ("b", vNum 2)]]
        = generateRedisKey "f" [vObj [("b", vNum 2), ("a", vNum 1)]]
    ∧ generateRedisKey "f" [vObj [("a", vNum 1), ("b", vNum 2)]]
        = "f" ++ ":" ++ stableStringify (argsObject [vObj [("a", vNum 1), ("b", vNum 2)]]) := by
  have h := C7_key_derivation "f" [vObj [("a", vNum 1), ("b", vNum 2)]]
    [vObj [("b", vNum 2), ("a", vNum 1)]] (by decide) (by decide) (by decide)
  exact ⟨by decide, by decide, by decide, h.2, h.1⟩

theorem logMsg_pending (w : World) (msg : String) : (logMsg w msg).pending = w.pending := by
  unfold logMsg
  split <;> rfl

theorem redisSet_pending (w : World) (flt : Faults) (key val : String) (e : Option Nat) :
    (redisSet w flt key val e).1.pending = w.pending := by
  unfold redisSet
  cases h : flt.setF <;> rfl

theorem redisTtlQ_pending (w : World) (flt : Faults) (key : String) :
    (redisTtlQ w flt key).1.pending = w.pending := by
  unfold redisTtlQ
  cases h : flt.ttlF <;> rfl

theorem redisDel_pending (w : World) (flt : Faults) (key : String) :
    (redisDel w flt key).1.pending = w.pending := by
  unfold redisDel
  cases h : flt.delF <;> rfl

theorem readFromRedis_pending (w : World) (flt : Faults) (key : String) :
    (readFromRedis w flt key).1.pending = w.pending := by
  rcases hg : flt.getF with _ | e
  · rcases hm : alGet w.store key with _ | entry
    · rw [readFromRedis_miss w flt key hg hm]
    · rcases hp : jsonParse entry.raw with _ | v
      · rw [readFromRedis_hitRaw w flt key entry hg hm hp]
        show (logMsg (logMsg { w with ops := w.ops ++ [StoreOp.get key] }
          "Error parsing redis data") "SyntaxError").pending = w.pending
        rw [logMsg_pending, logMsg_pending]
      · rw [readFromRedis_hit w flt key entry v hg hm hp]
  · rw [readFromRedis_fault w flt key e hg]

theorem writePreservingTtl_pending (w : World) (flt : Faults) (key cd : String) :
    (writePreservingTtl w flt key cd).1.pending = w.pending := by
  unfold writePreservingTtl
  rcases h : redisTtlQ w flt key with ⟨w2, r⟩
  have hw2 : w2.pending = w.pending := by
    have hq := redisTtlQ_pending w flt key
    rw [h] at hq
    exact hq
  cases r with
  | error e => exact hw2
  | ok itemTtl =>
    show (if itemTtl > 0 then redisSet w2 flt key cd (some itemTtl.toNat)
      else redisSet (logMsg w2 ("WARNING: saved item to cache with no TTL - key " ++ key)) flt key cd none).1.pending = w.pending
    split
    · rw [redisSet_pending]
      exact hw2
    · rw [redisSet_pending, logMsg_pending]
      exact hw2

theorem writeToRedis_none_pending (w : World) (flt : Faults) (key : String) (data : JsValue) :
    (writeToRedis w flt key data none).1.pending = w.pending := by
  cases ha : isRedisActive w with
  | false =>
    unfold writeToRedis
    rw [ha]
    rfl
  | true =>
    rw [writeToRedis_live_none w flt key data ha]
    exact writePreservingTtl_pending w flt key (cacheDataOf data)

theorem markDataStale_pending (w : World) (flt : Faults) (key : String) :
    (markDataStale w flt key).pending = w.pending := by
  unfold markDataStale
  rcases h : readFromRedis w flt key with ⟨w2, r⟩
  have hw2 : w2.pending = w.pending := by
    have hq := readFromRedis_pending w flt key
    rw [h] at hq
    exact hq
  cases r with
  | error e => exact hw2
  | ok data =>
    show (if truthy data = true
      then (writeToRedis w2 flt key (setProp data REQUEST_RESET_KEY (vBool true)) none).1
      else w2).pending = w.pending
    split
    · rw [writeToRedis_none_pending]
      exact hw2
    · exact hw2

theorem clearPrefetchTimeout_pendingFor (w : World) (key : String) (hInv : TInv w) :
    pendingFor (clearPrefetchTimeout w key) key = 0 := by
  unfold pendingFor
  have h := clearPrefetchTimeout_nokey w key hInv
  rw [List.length_eq_zero, List.filter_eq_nil_iff]
  intro t ht
  simpa using h t ht

theorem deleteFromRedis_pendingFor (w : World) (flt : Faults) (key : String) (hInv : TInv w) :
    pendingFor (deleteFromRedis w flt key).1 key = 0 := by
  unfold deleteFromRedis
  show pendingFor (if (!isRedisActive (clearPrefetchTimeout w key)) = true
    then ((clearPrefetchTimeout w key, Except.ok ()) : World × Except JsValue Unit)
    else redisDel (clearPrefetchTimeout w key) flt key).1 key = 0
  split
  · exact clearPrefetchTimeout_pendingFor w key hInv
  · unfold pendingFor
    rw [redisDel_pending]
    exact clearPrefetchTimeout_pendingFor w key hInv

theorem fireTimer_discards (w : World) (flt : Faults) (t : TimerRec) (hInv : TInv w)
    (ht : t ∈ w.pending) : t ∉ (fireTimer w flt t).pending := by
  unfold fireTimer
  rw [if_pos ht]
  rw [markDataStale_pending]
  show t ∉ w.pending.erase t
  have hnd : w.pending.Nodup := (hInv.2.2.1).of_map
  exact hnd.not_mem_erase

/-- C5: under the timer-table invariant, every cache key has at most one
pending prefetch timer; arming a timer for a key cancels every earlier
pending timer for that key and leaves exactly one pending timer for it,
carrying the later call's delay `ttl * ratio * 1000`; deleting the key
leaves no pending timer for it, whether or not the store is live; and a
timer that fires is discarded from the pending set rather than
recurring.  The invariant itself is preserved by arming. -/
theorem C5_one_timer_per_key (w : World) (flt : Faults) (key : String) (ttl : Nat)
    (t : TimerRec) (hInv : TInv w) :
    (∀ k, pendingFor w k ≤ 1)
    ∧ TInv (setPrefetchTimeout w key ttl)
    ∧ (∀ t2 ∈ w.pending, t2.key = key → t2 ∉ (setPrefetchTimeout w key ttl).pending)
    ∧ (∃ i, (setPrefetchTimeout w key ttl).pending.filter (fun t2 => t2.key == key)
        = [⟨i, key, (ttl : ℚ) * w.ratioQ * 1000⟩])
    ∧ pendingFor (deleteFromRedis w flt key).1 key = 0
    ∧ (t ∈ w.pending → t ∉ (fireTimer w flt t).pending) :=
  ⟨fun k => pendingFor_le_one w k hInv, setPrefetchTimeout_inv w key ttl hInv,
    setPrefetchTimeout_cancels w key ttl hInv, ⟨_, setPrefetchTimeout_arms w key ttl hInv⟩,
    deleteFromRedis_pendingFor w flt key hInv, fun ht => fireTimer_discards w flt t hInv ht⟩

theorem C5_one_timer_per_key_witness :
    TInv ⟨"ready", [], [⟨0, "k", 5⟩], [("k", 0)], 1, 0, false, 0, [], []⟩
    ∧ pendingFor ⟨"ready", [], [⟨0, "k", 5⟩], [("k", 0)], 1, 0, false, 0, [], []⟩ "k" ≤ 1
    ∧ pendingFor (deleteFromRedis ⟨"ready", [], [⟨0, "k", 5⟩], [("k", 0)], 1, 0, false, 0, [], []⟩ noFaults "k").1 "k" = 0
    ∧ (⟨0, "k", 5⟩ : TimerRec) ∉ (fireTimer ⟨"ready", [], [⟨0, "k", 5⟩], [("k", 0)], 1, 0, false, 0, [], []⟩ noFaults ⟨0, "k", 5⟩).pending := by
  have h := C5_one_timer_per_key ⟨"ready", [], [⟨0, "k", 5⟩], [("k", 0)], 1, 0, false, 0, [], []⟩ noFaults "k" 7 ⟨0, "k", 5⟩ (by refine ⟨?_, ?_, ?_, ?_, ?_⟩ <;> decide)
  exact ⟨⟨by decide, by decide, by decide, by decide, by decide⟩, h.1 "k", h.2.2.2.2.1,
    h.2.2.2.2.2 (by decide)⟩

theorem deleteFromRedis_live_eq (acc : World) (flt : Faults) (k : String)
    (hlive : isRedisActive acc = true) (hdel : flt.delF = none) :
    deleteFromRedis acc flt k
      = ({ clearPrefetchTimeout acc k with ops := (clearPrefetchTimeout acc k).ops ++ [StoreOp.del k], store := alRemove (clearPrefetchTimeout acc k).store k }, Except.ok ()) := by
  have h2 : isRedisActive (clearPrefetchTimeout acc k) = true := by
    unfold isRedisActive at hlive ⊢
    rw [(clearPrefetchTimeout_same acc k).2.1]
    exact hlive
  unfold deleteFromRedis
  show (if (!isRedisActive (clearPrefetchTimeout acc k)) = true
    then (clearPrefetchTimeout acc k, Except.ok ())
    else redisDel (clearPrefetchTimeout acc k) flt k) = _
  rw [h2]
  show redisDel (clearPrefetchTimeout acc k) flt k = _
  exact redisDel_ok (clearPrefetchTimeout acc k) flt k hdel

theorem deleteFromRedis_pending_sub (acc : World) (flt : Faults) (k : String) :
    List.Sublist (deleteFromRedis acc flt k).1.pending acc.pending := by
  unfold deleteFromRedis
  show List.Sublist (if (!isRedisActive (clearPrefetchTimeout acc k)) = true
    then ((clearPrefetchTimeout acc k, Except.ok ()) : World × Except JsValue Unit)
    else redisDel (clearPrefetchTimeout acc k) flt k).1.pending acc.pending
  split
  · exact clearPrefetchTimeout_sub acc k
  · rw [redisDel_pending]
    exact clearPrefetchTimeout_sub acc k

theorem pendingFor_le_of_sub (w' w : World) (h : List.Sublist w'.pending w.pending)
    (k : String) : pendingFor w' k ≤ pendingFor w k :=
  List.Sublist.length_le (h.filter _)

theorem foldDel_pendingFor_le (flt : Faults) : ∀ (ks : List String) (acc : World) (kk : String),
    pendingFor (ks.foldl (fun a k => (deleteFromRedis a flt k).1) acc) kk ≤ pendingFor acc kk := by
  intro ks
  induction ks with
  | nil => intro acc kk; exact le_rfl
  | cons k ks ih =>
    intro acc kk
    exact le_trans (ih (deleteFromRedis acc flt k).1 kk)
      (pendingFor_le_of_sub _ acc (deleteFromRedis_pending_sub acc flt k) kk)

theorem foldDel_facts (flt : Faults) (hdel : flt.delF = none) :
    ∀ (ks : List String) (acc : World), acc.status = "ready" → TInv acc →
      (ks.foldl (fun a k => (deleteFromRedis a flt k).1) acc).status = "ready"
      ∧ TInv (ks.foldl (fun a k => (deleteFromRedis a flt k).1) acc)
      ∧ (ks.foldl (fun a k => (deleteFromRedis a flt k).1) acc).store
          = ks.foldl (fun s k => alRemove s k) acc.store
      ∧ ∀ k ∈ ks, pendingFor (ks.foldl (fun a k => (deleteFromRedis a flt k).1) acc) k = 0 := by
  intro ks
  induction ks with
  | nil =>
    intro acc h1 h2
    refine ⟨h1, h2, rfl, ?_⟩
    intro k hk
    cases hk
  | cons k ks ih =>
    intro acc hst hI
    have hlive : isRedisActive acc = true := by
      unfold isRedisActive
      rw [hst]
      rfl
    have hdel1 := deleteFromRedis_live_eq acc flt k hlive hdel
    have hst1 : (deleteFromRedis acc flt k).1.status = "ready" := by
      rw [hdel1]
      show (clearPrefetchTimeout acc k).status = "ready"
      rw [(clearPrefetchTimeout_same acc k).2.1]
      exact hst
    have hI1 : TInv (deleteFromRedis acc flt k).1 := by
      rw [hdel1]
      exact TInv_congr (clearPrefetchTimeout acc k) _ rfl rfl rfl
        (clearPrefetchTimeout_inv acc k hI)
    have hsd : (deleteFromRedis acc flt k).1.store = alRemove acc.store k := by
      rw [hdel1]
      show alRemove (clearPrefetchTimeout acc k).store k = alRemove acc.store k
      rw [(clearPrefetchTimeout_same acc k).1]
    have hpd : pendingFor (deleteFromRedis acc flt k).1 k = 0 :=
      deleteFromRedis_pendingFor acc flt k hI
    obtain ⟨ha, hb, hc, hd⟩ := ih (deleteFromRedis acc flt k).1 hst1 hI1
    refine ⟨ha, hb, ?_, ?_⟩
    · show (ks.foldl (fun a k2 => (deleteFromRedis a flt k2).1) (deleteFromRedis acc flt k).1).store
        = ks.foldl (fun s k2 => alRemove s k2) (alRemove acc.store k)
      rw [hc, hsd]
    · intro kk hkk
      rcases List.mem_cons.mp hkk with rfl | hmem
      · have hle := foldDel_pendingFor_le flt ks (deleteFromRedis acc flt kk).1 kk
        rw [hpd] at hle
        exact Nat.le_zero.mp hle
      · exact hd kk hmem

theorem alRemove_eq_filter {α : Type} : ∀ (s : List (String × α)) (k : String),
    (s.map Prod.fst).Nodup → alRemove s k = s.filter (fun p => !(p.1 == k)) := by
  intro s
  induction s with
  | nil =>
    intro k _
    rfl
  | cons p rest ih =>
    intro k hnd
    rcases p with ⟨k1, v⟩
    have hk1 : k1 ∉ rest.map Prod.fst := (List.nodup_cons.mp hnd).1
    have hnd1 : (rest.map Prod.fst).Nodup := (List.nodup_cons.mp hnd).2
    unfold alRemove
    by_cases h : k1 = k
    · rw [if_pos h]
      subst h
      rw [List.filter_cons]
      simp only [beq_self_eq_true, Bool.not_true, Bool.false_eq_true, if_false]
      refine (List.filter_eq_self.mpr ?_).symm
      intro a ha
      have : a.1 ≠ k1 := fun he => hk1 (he ▸ List.mem_map_of_mem Prod.fst ha)
      simp [this]
    · rw [if_neg h]
      rw [List.filter_cons]
      have : ((fun p => !(p.1 == k)) (k1, v)) = true := by simp [h]
      rw [if_pos this, ih k hnd1]

theorem foldRemove_contains {α : Type} : ∀ (ks : List String) (s : List (String × α)),
    (s.map Prod.fst).Nodup →
    ks.foldl (fun a k => alRemove a k) s = s.filter (fun p => !(ks.contains p.1)) := by
  intro ks
  induction ks with
  | nil =>
    intro s hnd
    simp
  | cons k ks ih =>
    intro s hnd
    show ks.foldl (fun a k2 => alRemove a k2) (alRemove s k) = _
    have hnd1 : ((alRemove s k).map Prod.fst).Nodup :=
      List.Nodup.sublist ((alRemove_sublist s k).map Prod.fst) hnd
    rw [ih (alRemove s k) hnd1, alRemove_eq_filter s k hnd, List.filter_filter]
    apply List.filter_congr
    intro a _
    show ((!(ks.contains a.1)) && !(a.1 == k)) = !((k :: ks).contains a.1)
    rw [List.contains_cons, Bool.not_or, Bool.and_comm]

theorem alGet_filter_nomatch {α : Type} (glob : String → Bool) :
    ∀ (s : List (String × α)) (k : String), glob k = false →
    alGet (s.filter (fun p => !(glob p.1))) k = alGet s k := by
  intro s
  induction s with
  | nil =>
    intro k _
    rfl
  | cons p rest ih =>
    intro k h
    rcases p with ⟨k1, v⟩
    rw [List.filter_cons]
    by_cases hk : k1 = k
    · subst hk
      simp only [h, Bool.not_false, if_true]
      show alGet ((k1, v) :: rest.filter (fun p => !(glob p.1))) k1 = alGet ((k1, v) :: rest) k1
      unfold alGet
      rw [if_pos rfl, if_pos rfl]
    · cases hg : glob k1 with
      | false =>
        simp only [hg, Bool.not_false, if_true]
        show alGet ((k1, v) :: rest.filter (fun p => !(glob p.1))) k = alGet ((k1, v) :: rest) k
        unfold alGet
        rw [if_neg hk, if_neg hk]
        exact ih k h
      | true =>
        simp only [hg, Bool.not_true, Bool.false_eq_true, if_false]
        show alGet (rest.filter (fun p => !(glob p.1))) k = alGet ((k1, v) :: rest) k
        rw [ih k h]
        show alGet rest k = if k1 = k then some v else alGet rest k
        rw [if_neg hk]

/-- C9 counterexample: the claim says `clearCache` is a no-op that does
not throw when the store is not live.  The code runs the `redis.keys`
scan with no liveness check: on a not-live world the scan is still
issued, and if it rejects, the rejection propagates to `clearCache`'s
caller. -/
theorem C9_notlive_scan_counterexample :
    isRedisActive ⟨"connecting", [], [], [], 0, 0, false, 0, [], []⟩ = false
    ∧ (clearMemoizedFunctionCache ⟨"connecting", [], [], [], 0, 0, false, 0, [], []⟩ ⟨none, none, none, none, some (vStr "down")⟩ "f" (some "u")).2 = Except.error (vStr "down")
    ∧ (clearMemoizedFunctionCache ⟨"connecting", [], [], [], 0, 0, false, 0, [], []⟩ noFaults "f" (some "u")).1.ops = [StoreOp.keysq "f:*u*"] :=
  ⟨rfl, rfl, rfl⟩

/-- C9 amended: with a live store, a succeeding scan and delete, and
distinct store keys, `clearCache` with a non-empty locator resolves
successfully, deletes exactly the entries whose keys match the glob
`fname ++ ":*" ++ locator ++ "*"` (entries with non-matching keys keep
their values, and the statement covers zero matches), and leaves no
pending prefetch timer for any deleted key; the liveness guard, however,
does not cover the scan itself, which is issued even on a not-live
store. -/
theorem C9_clear_cache_amended (w : World) (flt : Faults) (fname l : String)
    (hlive : w.status = "ready") (hkeys : flt.keysF = none) (hdel : flt.delF = none)
    (hl : l ≠ "") (hnd : (w.store.map Prod.fst).Nodup) (hI : TInv w) :
    (clearMemoizedFunctionCache w flt fname (some l)).2 = Except.ok ()
    ∧ (clearMemoizedFunctionCache w flt fname (some l)).1.store
        = w.store.filter (fun p => !(globMatch (fname ++ ":*" ++ (l ++ "*")) p.1))
    ∧ (∀ k, globMatch (fname ++ ":*" ++ (l ++ "*")) k = false →
        alGet (clearMemoizedFunctionCache w flt fname (some l)).1.store k = alGet w.store k)
    ∧ (∀ k ∈ w.store.map Prod.fst, globMatch (fname ++ ":*" ++ (l ++ "*")) k = true →
        pendingFor (clearMemoizedFunctionCache w flt fname (some l)).1 k = 0) := by
  have hglob : clearMemoizedFunctionCache w flt fname (some l)
      = ((((w.store.map Prod.fst).filter (fun k => globMatch (fname ++ ":*" ++ (l ++ "*")) k)).foldl
          (fun acc k => (deleteFromRedis acc flt k).1)
          { w with ops := w.ops ++ [StoreOp.keysq (fname ++ ":*" ++ (l ++ "*"))] }), Except.ok ()) := by
    simp only [clearMemoizedFunctionCache, hl]
    rw [if_pos (by exact hl)]
    rw [redisKeysQ_ok w flt (fname ++ ":*" ++ (l ++ "*")) hkeys]
  have hst2 : ({ w with ops := w.ops ++ [StoreOp.keysq (fname ++ ":*" ++ (l ++ "*"))] } : World).status = "ready" := hlive
  have hI2 : TInv { w with ops := w.ops ++ [StoreOp.keysq (fname ++ ":*" ++ (l ++ "*"))] } :=
    TInv_congr w _ rfl rfl rfl hI
  obtain ⟨hfa, hfb, hfc, hfd⟩ := foldDel_facts flt hdel
    ((w.store.map Prod.fst).filter (fun k => globMatch (fname ++ ":*" ++ (l ++ "*")) k))
    { w with ops := w.ops ++ [StoreOp.keysq (fname ++ ":*" ++ (l ++ "*"))] } hst2 hI2
  have hstore : (clearMemoizedFunctionCache w flt fname (some l)).1.store
      = w.store.filter (fun p => !(globMatch (fname ++ ":*" ++ (l ++ "*")) p.1)) := by
    rw [hglob]
    show (((w.store.map Prod.fst).filter (fun k => globMatch (fname ++ ":*" ++ (l ++ "*")) k)).foldl
        (fun acc k => (deleteFromRedis acc flt k).1)
        { w with ops := w.ops ++ [StoreOp.keysq (fname ++ ":*" ++ (l ++ "*"))] }).store = _
    rw [hfc]
    show ((w.store.map Prod.fst).filter (fun k => globMatch (fname ++ ":*" ++ (l ++ "*")) k)).foldl
        (fun s k => alRemove s k) w.store = _
    rw [foldRemove_contains _ w.store hnd]
    apply List.filter_congr
    intro a ha
    have hmemfst : a.1 ∈ w.store.map Prod.fst := List.mem_map_of_mem Prod.fst ha
    cases hc : ((w.store.map Prod.fst).filter (fun k => globMatch (fname ++ ":*" ++ (l ++ "*")) k)).contains a.1 with
    | true =>
      have := (List.mem_filter.mp (List.elem_iff.mp hc)).2
      rw [this]
    | false =>
      cases hgm : globMatch (fname ++ ":*" ++ (l ++ "*")) a.1 with
      | false => rfl
      | true =>
        have hmem : a.1 ∈ (w.store.map Prod.fst).filter (fun k => globMatch (fname ++ ":*" ++ (l ++ "*")) k) :=
          List.mem_filter.mpr ⟨hmemfst, hgm⟩
        have he : ((w.store.map Prod.fst).filter (fun k2 => globMatch (fname ++ ":*" ++ (l ++ "*")) k2)).contains a.1 = true :=
          List.elem_iff.mpr hmem
        rw [hc] at he
        exact Bool.noConfusion he
  refine ⟨by rw [hglob], hstore, ?_, ?_⟩
  · intro k hk
    rw [hstore]
    exact alGet_filter_nomatch (fun k2 => globMatch (fname ++ ":*" ++ (l ++ "*")) k2) w.store k hk
  · intro k hkmem hkm
    have hkin : k ∈ (w.store.map Prod.fst).filter (fun k2 => globMatch (fname ++ ":*" ++ (l ++ "*")) k2) :=
      List.mem_filter.mpr ⟨hkmem, hkm⟩
    have := hfd k hkin
    rw [hglob]
    exact this

theorem C9_clear_cache_amended_witness :
    globMatch "f:*u*" "f:u1" = true
    ∧ globMatch "f:*u*" "f:x2" = false
    ∧ (clearMemoizedFunctionCache ⟨"ready", [("f:u1", ⟨"1", some 5⟩), ("f:x2", ⟨"2", some 5⟩)], [⟨0, "f:u1", 3⟩], [("f:u1", 0)], 1, 0, false, 0, [], []⟩ noFaults "f" (some "u")).2 = Except.ok ()
    ∧ (clearMemoizedFunctionCache ⟨"ready", [("f:u1", ⟨"1", some 5⟩), ("f:x2", ⟨"2", some 5⟩)], [⟨0, "f:u1", 3⟩], [("f:u1", 0)], 1, 0, false, 0, [], []⟩ noFaults "f" (some "u")).1.store = [("f:x2", ⟨"2", some 5⟩)]
    ∧ alGet (clearMemoizedFunctionCache ⟨"ready", [("f:u1", ⟨"1", some 5⟩), ("f:x2", ⟨"2", some 5⟩)], [⟨0, "f:u1", 3⟩], [("f:u1", 0)], 1, 0, false, 0, [], []⟩ noFaults "f" (some "u")).1.store "f:x2" = some ⟨"2", some 5⟩
    ∧ pendingFor (clearMemoizedFunctionCache ⟨"ready", [("f:u1", ⟨"1", some 5⟩), ("f:x2", ⟨"2", some 5⟩)], [⟨0, "f:u1", 3⟩], [("f:u1", 0)], 1, 0, false, 0, [], []⟩ noFaults "f" (some "u")).1 "f:u1" = 0 := by
  have h := C9_clear_cache_amended ⟨"ready", [("f:u1", ⟨"1", some 5⟩), ("f:x2", ⟨"2", some 5⟩)], [⟨0, "f:u1", 3⟩], [("f:u1", 0)], 1, 0, false, 0, [], []⟩ noFaults "f" "u" rfl rfl rfl (by decide) (by decide) (by refine ⟨?_, ?_, ?_, ?_, ?_⟩ <;> decide)
  refine ⟨by decide, by decide, h.1, ?_, ?_, ?_⟩
  · rw [h.2.1]
    decide
  · have := h.2.2.1 "f:x2" (by decide)
    rw [this]
    decide
  · exact h.2.2.2 "f:u1" (by decide) (by decide)

/-! Heap model for C8.  `JsValue` trees cannot represent the cyclic
structures JavaScript callers can pass, so the serializer is re-run over
an explicit heap: values hold references (heap indices) instead of
subtrees, and `json-stable-stringify`'s recursive worker is modelled with
its `seen` ancestor list (a revisited non-array object throws
`TypeError: Converting circular structure to JSON`) and an explicit stack
budget (exhaustion is the engine's `RangeError`). -/

inductive HeapVal where
  | hNull : HeapVal
  | hBool : Bool → HeapVal
  | hNum : Int → HeapVal
  | hStr : String → HeapVal
  | hArr : List Nat → HeapVal
  | hObj : List (String × Nat) → HeapVal

/-- Dereference a heap index. -/
def heapGet : List HeapVal → Nat → Option HeapVal
  | [], _ => none
  | x :: _, 0 => some x
  | _ :: rest, n + 1 => heapGet rest n

/-- Sorted field names, as `sortedKeys` but for reference-valued
fields. -/
def sortedKeysH (fs : List (String × Nat)) : List String :=
  List.insertionSort keyLe (fs.map Prod.fst)

mutual

/-- `json-stable-stringify`'s recursive worker on the heap: `seen` is the
ancestor chain of non-array objects. -/
def stableHJ : Nat → List HeapVal → List Nat → Nat → Except String (List Char)
  | 0, _, _, _ => Except.error "RangeError: Maximum call stack size exceeded"
  | f + 1, heap, seen, r =>
    match heapGet heap r with
    | none => Except.error "dangling reference"
    | some HeapVal.hNull => Except.ok ['n', 'u', 'l', 'l']
    | some (HeapVal.hBool b) =>
      Except.ok (if b then ['t', 'r', 'u', 'e'] else ['f', 'a', 'l', 's', 'e'])
    | some (HeapVal.hNum n) => Except.ok (intChars n)
    | some (HeapVal.hStr s) => Except.ok (strChars s.data)
    | some (HeapVal.hArr xs) =>
      match stableHList f heap seen xs with
      | Except.error e => Except.error e
      | Except.ok parts => Except.ok ('[' :: (joinComma parts ++ [']']))
    | some (HeapVal.hObj fs) =>
      if seen.contains r then
        Except.error "TypeError: Converting circular structure to JSON"
      else
        match stableHFields f heap (r :: seen) fs (sortedKeysH fs) with
        | Except.error e => Except.error e
        | Except.ok parts => Except.ok ('\x7b' :: (joinComma parts ++ ['\x7d']))

/-- Serialize the elements of an array node. -/
def stableHList : Nat → List HeapVal → List Nat → List Nat → Except String (List (List Char))
  | _, _, _, [] => Except.ok []
  | 0, _, _, _ :: _ => Except.error "RangeError: Maximum call stack size exceeded"
  | f + 1, heap, seen, x :: xs =>
    match stableHJ f heap seen x with
    | Except.error e => Except.error e
    | Except.ok c =>
      match stableHList f heap seen xs with
      | Except.error e => Except.error e
      | Except.ok cs => Except.ok (c :: cs)

/-- Serialize the fields of an object node in sorted key order. -/
def stableHFields : Nat → List HeapVal → List Nat → List (String × Nat) → List String →
    Except String (List (List Char))
  | _, _, _, _, [] => Except.ok []
  | 0, _, _, _, _ :: _ => Except.error "RangeError: Maximum call stack size exceeded"
  | f + 1, heap, seen, fs, k :: ks =>
    match alGet fs k with
    | none => Except.error "missing key"
    | some r =>
      match stableHJ f heap seen r with
      | Except.error e => Except.error e
      | Except.ok c =>
        match stableHFields f heap seen fs ks with
        | Except.error e => Except.error e
        | Except.ok cs => Except.ok ((strChars k.data ++ ':' :: c) :: cs)

end

/-- The `arguments` object of a heap-argument call: stringified indices
bound to references. -/
def argsFieldsH : Nat → List Nat → List (String × Nat)
  | _, [] => []
  | i, r :: rest => (String.mk (natChars i), r) :: argsFieldsH (i + 1) rest

/-- `generateRedisKey` over heap arguments: the `arguments` object is
serialized field by field in sorted key order (it is itself a fresh
object, so it starts the `seen` chain empty); a serializer throw
propagates. -/
def generateRedisKeyH (budget : Nat) (heap : List HeapVal) (fname : String)
    (args : List Nat) : Except String String :=
  match stableHFields budget heap [] (argsFieldsH 0 args) (sortedKeysH (argsFieldsH 0 args)) with
  | Except.error e => Except.error e
  | Except.ok parts => Except.ok (fname ++ ":" ++ String.mk ('\x7b' :: (joinComma parts ++ ['\x7d'])))

example : generateRedisKeyH 100 [HeapVal.hObj [("a", 1)], HeapVal.hNum 7] "f" [0]
    = Except.ok "f:\x7b\"0\":\x7b\"a\":7\x7d\x7d" := rfl

example : generateRedisKeyH 100 [HeapVal.hObj [("self", 0)]] "f" [0]
    = Except.error "TypeError: Converting circular structure to JSON" := rfl

/-- The body of `memoizedMethod` after its first statement has computed
the cache key. -/
def memoizedMethodOnKey (w : World) (flt : Faults) (fname key : String) (ttl : Nat)
    (fRes : Nat → Except JsValue JsValue) : World × Except JsValue JsValue :=
  if !(isRedisActive w) then
    let w2 := logMsg w ("Bypassing cache for: " ++ fname)
    callF w2 fRes
  else
    match readFromRedis w flt key with
    | (w2, Except.error _) =>
      let w3 := logMsg (logMsg w2 "Redis failure!") "error"
      callF w3 fRes
    | (w2, Except.ok redisResponse) =>
      if !(truthy redisResponse) then
        match callF w2 fRes with
        | (w3, Except.ok data) =>
          ((writeToRedis w3 flt key data (some ttl)).1, Except.ok data)
        | (w3, Except.error _) =>
          let w4 := (deleteFromRedis w3 flt key).1
          let w5 := logMsg (logMsg w4 "Redis failure!") "error"
          callF w5 fRes
      else
        if shouldRefresh redisResponse then
          match callF w2 fRes with
          | (w3, Except.ok data) =>
            ((writeToRedis w3 flt key data (some ttl)).1, Except.ok redisResponse)
          | (w3, Except.error _) => (w3, Except.ok redisResponse)
        else (w2, Except.ok redisResponse)

theorem memoizedMethod_eq_onKey (w : World) (flt : Faults) (fname : String) (ttl : Nat)
    (fRes : Nat → Except JsValue JsValue) (args : List JsValue) :
    memoizedMethod w flt fname ttl fRes args
      = memoizedMethodOnKey w flt fname (generateRedisKey fname args) ttl fRes := rfl

/-- One invocation of `memoizedMethod` on heap arguments: the key is
derived first, and a synchronous stringify throw escapes the wrapper
before any liveness check or store interaction. -/
def memoizedMethodH (budget : Nat) (w : World) (flt : Faults) (heap : List HeapVal)
    (fname : String) (ttl : Nat) (fRes : Nat → Except JsValue JsValue) (args : List Nat) :
    Except String (World × Except JsValue JsValue) :=
  match generateRedisKeyH budget heap fname args with
  | Except.error e => Except.error e
  | Except.ok key => Except.ok (memoizedMethodOnKey w flt fname key ttl fRes)

/-- C8 counterexample: the claim says key derivation never throws, even
on cyclic argument structures, failing closed instead.  In the code
`generateRedisKey` calls `json-stable-stringify` unguarded, and the
wrapper computes the key before its liveness check with no catch: on a
self-referencing object argument the stringifier's cycle check throws
`TypeError: Converting circular structure to JSON`, and the throw escapes
the wrapper — here even on a not-live store, where the claim's fail-closed
bypass would apply. -/
theorem C8_cycle_throws_counterexample :
    generateRedisKeyH 100 [HeapVal.hObj [("self", 0)]] "f" [0]
      = Except.error "TypeError: Converting circular structure to JSON"
    ∧ isRedisActive ⟨"connecting", [], [], [], 0, 0, false, 0, [], []⟩ = false
    ∧ memoizedMethodH 100 ⟨"connecting", [], [], [], 0, 0, false, 0, [], []⟩ noFaults
        [HeapVal.hObj [("self", 0)]] "f" 300 (fun _ => Except.ok (vNum 1)) [0]
      = Except.error "TypeError: Converting circular structure to JSON" :=
  ⟨rfl, rfl, rfl⟩

/-- C8 amended: for every stack budget of at least 4, key derivation on
the self-referencing object argument throws the stringifier's
`TypeError` rather than failing closed, and every wrapper call with that
argument propagates the throw regardless of world, faults, TTL, or the
wrapped operation; on an acyclic heap argument the wrapper derives the
key successfully and behaves exactly as the tree-model wrapper on the
corresponding tree argument. -/
theorem C8_cycle_throws_amended (budget : Nat) (hb : 4 ≤ budget) :
    (generateRedisKeyH budget [HeapVal.hObj [("self", 0)]] "f" [0]
      = Except.error "TypeError: Converting circular structure to JSON")
    ∧ (∀ (w : World) (flt : Faults) (ttl : Nat) (fRes : Nat → Except JsValue JsValue),
        memoizedMethodH budget w flt [HeapVal.hObj [("self", 0)]] "f" ttl fRes [0]
          = Except.error "TypeError: Converting circular structure to JSON")
    ∧ (∀ (w : World) (flt : Faults) (ttl : Nat) (fRes : Nat → Except JsValue JsValue),
        memoizedMethodH budget w flt [HeapVal.hObj [("a", 1)], HeapVal.hNum 7] "f" ttl fRes [0]
          = Except.ok (memoizedMethod w flt "f" ttl fRes [vObj [("a", vNum 7)]])) := by
  obtain ⟨b, rfl⟩ : ∃ b, budget = b + 4 := ⟨budget - 4, by omega⟩
  have hcyc : generateRedisKeyH (b + 4) [HeapVal.hObj [("self", 0)]] "f" [0]
      = Except.error "TypeError: Converting circular structure to JSON" := rfl
  have hok : generateRedisKeyH (b + 4) [HeapVal.hObj [("a", 1)], HeapVal.hNum 7] "f" [0]
      = Except.ok "f:\x7b\"0\":\x7b\"a\":7\x7d\x7d" := rfl
  refine ⟨hcyc, ?_, ?_⟩
  · intro w flt ttl fRes
    unfold memoizedMethodH
    rw [hcyc]
  · intro w flt ttl fRes
    unfold memoizedMethodH
    rw [hok, memoizedMethod_eq_onKey]
    rfl

theorem C8_cycle_throws_amended_witness :
    4 ≤ 100
    ∧ generateRedisKeyH 100 [HeapVal.hObj [("self", 0)]] "f" [0]
      = Except.error "TypeError: Converting circular structure to JSON"
    ∧ memoizedMethodH 100 ⟨"ready", [], [], [], 0, 0, false, 0, [], []⟩ noFaults
        [HeapVal.hObj [("a", 1)], HeapVal.hNum 7] "f" 300 (fun _ => Except.ok (vNum 1)) [0]
      = Except.ok (memoizedMethod ⟨"ready", [], [], [], 0, 0, false, 0, [], []⟩ noFaults "f" 300 (fun _ => Except.ok (vNum 1)) [vObj [("a", vNum 7)]]) := by
  have h := C8_cycle_throws_amended 100 (by decide)
  exact ⟨by decide, h.1, h.2.2 ⟨"ready", [], [], [], 0, 0, false, 0, [], []⟩ noFaults 300
    (fun _ => Except.ok (vNum 1))⟩
